import Mathlib

/-!
# Verification of the Nachos MP4 scheduler and file system core

This file is a shallow embedding, in Lean 4, of the core of the
`2015osteam22` Nachos kernel: the multi-level feedback scheduler
(`code/threads/scheduler.cc`) and the hierarchical file system
(`code/filesys/filesys.cc`, `code/filesys/directory.cc`), together with
theorems settling the specification claims about them.

Modelling conventions:

* C machine integers are modelled as `Nat`/`Int`; no arithmetic here
  overflows in the ranges the kernel asserts.
* C strings are modelled as `List Char` holding the characters before the
  terminating NUL (the embedded strings never contain a NUL).
* Code paths that are undefined behaviour in C (reading an uninitialized
  variable, smashing a fixed-size stack buffer, reading a disk sector that
  holds no value of the expected shape, failing a kernel `ASSERT`) are
  modelled by `Option`, returning `none`.
* Mutable objects reached through pointers are modelled by value; pointer
  identity of `Thread*` is modelled by the thread id, under the hypothesis
  (true in the kernel) that distinct live threads have distinct ids.
-/

namespace Nachos

/-! ## C string primitives (from `<string.h>`, as used by the source) -/

/-- `strncmpEq a b n` models `strncmp(a, b, n) == 0` for NUL-terminated C
strings: the comparison stops after `n` characters or at the first NUL
(end of list), and is `true` iff no inspected position differed. -/
def strncmpEq : List Char → List Char → Nat → Bool
  | _, _, 0 => true
  | [], [], _ + 1 => true
  | [], _ :: _, _ + 1 => false
  | _ :: _, [], _ + 1 => false
  | a :: as, b :: bs, n + 1 => if a = b then strncmpEq as bs n else false

/-- `strchrPos s c` models `strchr(s, c) - s`: the index of the first
occurrence of `c` in `s`, or `none` when `strchr` returns `NULL`. -/
def strchrPos (c : Char) : List Char → Option Nat
  | [] => none
  | x :: xs => if x = c then some 0 else (strchrPos c xs).map (· + 1)

/-- `strrchrPos s c` models `strrchr(s, c) - s`: the index of the last
occurrence of `c` in `s`, or `none` when `strrchr` returns `NULL`. -/
def strrchrPos (c : Char) : List Char → Option Nat
  | [] => none
  | x :: xs =>
    match strrchrPos c xs with
    | some j => some (j + 1)
    | none => if x = c then some 0 else none

/-! ## Thread descriptors and scheduler state (`threads/scheduler.cc`)

The `Thread` fields are the ones the scheduler reads and writes:
`getID()`, `priority`, `getGuessCPUBurst()` (a `double` in the source;
the scheduler only ever compares it after truncation to `int`, so the
truncated value is what we carry), `lastCPUTick`, `cpuBurst`, and the
status set by `setStatus`. -/

inductive ThStatus where
  | NEW | READY | RUNNING | BLOCKED | ZOMBIE
deriving DecidableEq, Repr

structure Thread where
  id : Int
  priority : Nat
  guessCPUBurst : Int
  lastCPUTick : Nat
  cpuBurst : Nat
  status : ThStatus
deriving DecidableEq, Repr

/-- `LEVEL_GAP` from `threads/scheduler.h` (50, per the spec tier map). -/
def LEVEL_GAP : Nat := 50

/-- `AGING_TICKS`: the literal 1500 in `Scheduler::Aging`. -/
def AGING_TICKS : Nat := 1500

/-- Modelled from the spec: `DEMOTE_LIMIT_TICK` is an implementation-defined
configured constant of the source headers (not under `src/`); the theorems
below do not depend on its value. -/
def DEMOTE_LIMIT_TICK : Nat := 1500

/-- Scheduler state: the three ready queues, the running thread
(`kernel->currentThread`), the tick counter (`kernel->stats->totalTicks`)
and the interrupt yield-on-return latch. All scheduler operations run
with interrupts off; the serialization discipline itself is not modelled. -/
structure SchedState where
  readyList : List Thread
  priorityList : List Thread
  sjfList : List Thread
  current : Thread
  now : Nat
  yieldOnReturn : Bool
deriving DecidableEq, Repr

namespace Scheduler

/-- `CompareThreadID` (scheduler.cc:33). -/
def CompareThreadID (t1 t2 : Thread) : Int :=
  if t1.id < t2.id then -1 else if t1.id > t2.id then 1 else 0

/-- `ComparePriority` (scheduler.cc:49): negated priorities so that the
sorted list, which yields the smallest element first, yields the highest
priority first; ties broken by thread id. -/
def ComparePriority (t1 t2 : Thread) : Int :=
  let p1 : Int := -(t1.priority : Int)
  let p2 : Int := -(t2.priority : Int)
  if p1 < p2 then -1 else if p1 > p2 then 1 else CompareThreadID t1 t2

/-- `CompareSJF` (scheduler.cc:69): smaller guessed burst first; ties broken
by thread id. -/
def CompareSJF (t1 t2 : Thread) : Int :=
  if t1.guessCPUBurst < t2.guessCPUBurst then -1
  else if t1.guessCPUBurst > t2.guessCPUBurst then 1
  else CompareThreadID t1 t2

/-- Nachos `SortedList<T>::Insert`: place the new element before the first
element strictly greater under the comparison function. -/
def insertSorted (cmp : Thread → Thread → Int) (x : Thread) : List Thread → List Thread
  | [] => [x]
  | y :: ys => if cmp x y < 0 then x :: y :: ys else y :: insertSorted cmp x ys

/-- `Scheduler::isPreempted` (scheduler.cc:390). `L1_LOWERBOUND` is the
source's `LEVEL_GAP * (3 - 1)`. -/
def L1_LOWERBOUND : Nat := LEVEL_GAP * (3 - 1)

def isPreempted (cur preempt : Thread) : Bool :=
  if L1_LOWERBOUND ≤ cur.priority ∧ L1_LOWERBOUND ≤ preempt.priority then
    CompareSJF preempt cur < 0
  else
    ComparePriority preempt cur < 0

/-- `Scheduler::ReadyToRun` (scheduler.cc:119).  Asserts
`0 ≤ priority < 150` (failure is `none`); stamps `lastCPUTick`, inserts the
thread into the queue of its tier, marks it `READY`, and raises the
yield-on-return latch when the new thread preempts the current one.
The queues hold pointers in the source, so the queued record carries all
the field updates made around the insertion. The `default` branch of the
tier switch is `ASSERTNOTREACHED` (`none`); it is dead under the priority
assertion. -/
def ReadyToRun (st : SchedState) (t : Thread) : Option SchedState :=
  if t.priority < 150 then
    let tlevel := t.priority / LEVEL_GAP
    let tq : Thread := { t with lastCPUTick := st.now, status := ThStatus.READY }
    let st1 : Option SchedState :=
      match tlevel with
      | 0 => some { st with readyList := st.readyList ++ [tq] }
      | 1 => some { st with priorityList := insertSorted ComparePriority tq st.priorityList }
      | 2 => some { st with sjfList := insertSorted CompareSJF tq st.sjfList }
      | _ + 3 => none
    match st1 with
    | none => none
    | some st2 =>
      if st.current.id ≠ t.id ∧ isPreempted st.current tq then
        some { st2 with yieldOnReturn := true }
      else
        some st2
  else none

/-- `Scheduler::FindNextToRun` (scheduler.cc:172): select the first
non-empty queue in the order sjf, priority, rr and pop its front;
`NULL` (here `none`) when all three are empty. -/
def FindNextToRun (st : SchedState) : Option (Thread × SchedState) :=
  match st.sjfList with
  | t :: ts => some (t, { st with sjfList := ts })
  | [] =>
    match st.priorityList with
    | t :: ts => some (t, { st with priorityList := ts })
    | [] =>
      match st.readyList with
      | t :: ts => some (t, { st with readyList := ts })
      | [] => none

/-- `Scheduler::Demote` (scheduler.cc:358): when the running thread's
current burst `now - lastCPUTick` reaches `DEMOTE_LIMIT_TICK`, accumulate
it into `cpuBurst`, restamp `lastCPUTick`, and if the thread's tier is
positive drop its priority to the top of the next-lower tier and request a
yield on interrupt return. -/
def Demote (st : SchedState) : SchedState :=
  let burst := st.now - st.current.lastCPUTick
  if DEMOTE_LIMIT_TICK ≤ burst then
    let cur1 : Thread :=
      { st.current with lastCPUTick := st.now, cpuBurst := st.current.cpuBurst + burst }
    let tlevel := cur1.priority / LEVEL_GAP
    if 0 < tlevel then
      { st with
          current := { cur1 with priority := tlevel * LEVEL_GAP - 1 },
          yieldOnReturn := true }
    else
      { st with current := cur1 }
  else st

/-! ### `Scheduler::Aging` (scheduler.cc:308)

The source walks `totalList[] = {readyList, priorityList, sjfList}` in that
order with a `ListIterator`, advancing the iterator *before* removing the
visited element.  Every thread the loop re-inserts (via `ReadyToRun`) has
its `lastCPUTick` restamped to `now`, so if the iterator meets such an
element again later the `now - lastCPUTick >= 1500` test fails and the
visit is a no-op.  The faithful functional rendering is therefore: take a
snapshot of a queue when its phase starts, fold the per-thread step over
that snapshot while threading the evolving scheduler state, and chain the
three phases.  Queue membership of the C `Thread*` pointers is rendered by
thread id (`removeById`, `replaceById`); this matches pointer identity
whenever the queued ids are distinct, which the membership theorems below
take as a hypothesis. -/

/-- The queue `totalList[i]` of `Scheduler::Aging`. -/
def getQueue (st : SchedState) : Nat → List Thread
  | 0 => st.readyList
  | 1 => st.priorityList
  | 2 => st.sjfList
  | _ + 3 => []

def setQueue (st : SchedState) (i : Nat) (l : List Thread) : SchedState :=
  match i with
  | 0 => { st with readyList := l }
  | 1 => { st with priorityList := l }
  | 2 => { st with sjfList := l }
  | _ + 3 => st

/-- `List<Thread*>::Remove(t)`: unlink the first element that is pointer
equal to `t`; rendered as removal of the first element with `t`'s id. -/
def removeById (i : Int) (l : List Thread) : List Thread :=
  l.eraseP (fun x => decide (x.id = i))

/-- In-place mutation of the queued object `t` (the C queue holds a pointer
to it): replace the first element carrying `t`'s id. -/
def replaceById (i : Int) (r : Thread) : List Thread → List Thread
  | [] => []
  | x :: xs => if x.id = i then r :: xs else x :: replaceById i r xs

/-- One visit of the `Aging` loop body for the thread `t` found on queue
`qi`: if `now - lastCPUTick >= 1500`, bump the priority to
`min(p + 10, 149)` (written as in the source), then either move the thread
through `ReadyToRun` (new priority at least `LEVEL_GAP`) or leave it in
place with `lastCPUTick` restamped. -/
def agingStep (now : Nat) (qi : Nat) (t : Thread) (st : SchedState) : Option SchedState :=
  if AGING_TICKS ≤ now - t.lastCPUTick then
    let p1 := if t.priority + 10 < 150 then t.priority + 10 else 149
    if LEVEL_GAP ≤ p1 then
      let st1 := setQueue st qi (removeById t.id (getQueue st qi))
      ReadyToRun st1 { t with priority := p1 }
    else
      some (setQueue st qi
        (replaceById t.id { t with priority := p1, lastCPUTick := now } (getQueue st qi)))
  else some st

/-- Fold `agingStep` over the snapshot of one queue. -/
def agingPhase (now : Nat) (qi : Nat) : List Thread → SchedState → Option SchedState
  | [], st => some st
  | t :: ts, st =>
    match agingStep now qi t st with
    | none => none
    | some st1 => agingPhase now qi ts st1

/-- `Scheduler::Aging` (scheduler.cc:308): the three phases, in the order
rr queue, priority queue, sjf queue. -/
def Aging (st : SchedState) : Option SchedState :=
  match agingPhase st.now 0 st.readyList st with
  | none => none
  | some s1 =>
    match agingPhase st.now 1 s1.priorityList s1 with
    | none => none
    | some s2 => agingPhase st.now 2 s2.sjfList s2

end Scheduler

/-! ## File system (`filesys/filesys.cc`, `filesys/directory.cc`)

The disk is modelled at the granularity the file-system code manipulates
it: an association of sectors to the file headers stored there, an
association of header sectors to the parsed entry table of the directory
*file* rooted at that header, and the bit content of the free-map file.
Byte-level `OpenFile` I/O (`filehdr.cc`, `openfile.cc` are not under
`src/`) is modelled from the spec: a `write_at`/`read_at` of `n` bytes at
offset 0 touches `min(n, length)` bytes, i.e. the first
`ceil(min(n, length) / SectorSize)` data sectors of the header chain, and
writes past the (non-extensible) end are truncated.  Every operation
additionally returns the list of disk sectors it wrote, in order, so that
"no sector of the disk is written" is a statement about the model. -/

/-- Sector size in bytes (`disk.h`; the spec's configured constant, 128). -/
def SectorSize : Nat := 128

/-- Number of sectors on the device (`disk.h`, not under `src/`;
modelled from the spec's configured constant). -/
def NumSectors : Nat := 1024

def FreeMapSector : Int := 0
def DirectorySector : Int := 1

/-- `NumDirEntries` (filesys.cc:65). -/
def NumDirEntries : Nat := 64

/-- `FileNameMaxLen` (`directory.h`; 9 per the source comment in
`Directory::Find_r` and the spec). -/
def FileNameMaxLen : Nat := 9

/-- Modelled from the spec: `sizeof(DirectoryEntry)` for the §6 layout
`{in_use, is_directory, sector : i32, name : u8[FileNameMaxLen+1]}`
padded to 4-byte alignment. No theorem depends on the exact value. -/
def sizeofDirectoryEntry : Nat := 24

/-- `DirectoryFileSize` (filesys.cc:66). -/
def DirectoryFileSize : Nat := sizeofDirectoryEntry * NumDirEntries

/-- `FreeMapFileSize` (filesys.cc:64): `NumSectors / BitsInByte`. -/
def FreeMapFileSize : Nat := NumSectors / 8

/-- Modelled from the spec: the number of data-sector slots of one
`FileHeader` occupying exactly one sector (`{length, num_sectors,
next_header_sector : i32}` plus the table). -/
def NumDirect : Nat := (SectorSize - 12) / 4

/-- On-disk `FileHeader` (spec §6): byte length, table of data sectors,
continuation header sector (`-1` = none). -/
structure FileHdr where
  numBytes : Int
  dataSectors : List Int
  nextHeaderSector : Int
deriving DecidableEq, Repr

/-- A `DirectoryEntry` (spec §6 / `directory.h`): the name holds the
characters before the NUL of the `char[FileNameMaxLen+1]` field. -/
structure DirEntry where
  inUse : Bool
  directoryFlag : Bool
  sector : Int
  name : List Char
deriving DecidableEq, Repr

/-- The typed disk: `hdrs s` is the header stored at sector `s` (when that
sector holds one), `dirs s` is the entry table stored in the data sectors
of the directory file whose header is at `s`, and `freemap` is the bit
content of the free-map file (bit `i` = sector `i` allocated). -/
structure Disk where
  hdrs : List (Int × FileHdr)
  dirs : List (Int × List DirEntry)
  freemap : List Bool
deriving DecidableEq, Repr

def alLookup {α : Type} : List (Int × α) → Int → Option α
  | [], _ => none
  | (k, v) :: rest, s => if k = s then some v else alLookup rest s

def alUpdate {α : Type} : List (Int × α) → Int → α → List (Int × α)
  | [], s, v => [(s, v)]
  | (k, w) :: rest, s, v =>
    if k = s then (s, v) :: rest else (k, w) :: alUpdate rest s v

def ceilDiv (a b : Nat) : Nat := (a + b - 1) / b

/-- Follow a header chain starting at `s`, reading each header from disk
(`FetchFrom`); reading a sector out of `[0, NumSectors)` fails the
`ReadSector` assertion, a sector holding no header is garbage, and a
cyclic chain never terminates — all rendered as `none` (the fuel exceeds
any acyclic chain length). -/
def fetchChainF (d : Disk) : Nat → Int → Option (List (Int × FileHdr))
  | 0, _ => none
  | fuel + 1, s =>
    if 0 ≤ s ∧ s < (NumSectors : Int) then
      match alLookup d.hdrs s with
      | none => none
      | some h =>
        if h.nextHeaderSector = -1 then some [(s, h)]
        else
          match fetchChainF d fuel h.nextHeaderSector with
          | none => none
          | some rest => some ((s, h) :: rest)
    else none

def fetchChain (d : Disk) (s : Int) : Option (List (Int × FileHdr)) :=
  fetchChainF d (NumSectors + 1) s

/-- All data sectors of a header chain, in chain order (the spec's
`byte_to_sector` walk). -/
def chainData (chain : List (Int × FileHdr)) : List Int :=
  chain.foldr (fun p acc => p.2.dataSectors ++ acc) []

/-- The data sectors touched by a file write of `nBytes` bytes at offset 0
through the given chain: the first `ceil(nBytes / SectorSize)` data
sectors.  Writing through a header that does not list enough (in-range)
data sectors is unmodelled garbage. -/
def fileWriteSectors (chain : List (Int × FileHdr)) (nBytes : Nat) : Option (List Int) :=
  let k := ceilDiv nBytes SectorSize
  let secs := (chainData chain).take k
  if secs.length = k ∧ secs.all (fun s => decide (0 ≤ s) && decide (s < (NumSectors : Int))) then
    some secs
  else none

def emptyDirEntry : DirEntry :=
  { inUse := false, directoryFlag := false, sector := 0, name := [] }

/-- The entry table of a freshly constructed `Directory(NumDirEntries)`:
every slot not in use (directory.cc:37). -/
def emptyDirTable : List DirEntry := List.replicate NumDirEntries emptyDirEntry

/-- `Directory::FetchFrom(file)` for the directory file whose header chain
is `chain`: `ReadAt` delivers `min(DirectoryFileSize, length)` bytes over
the constructor-initialized table.  A read that ends inside an entry, or a
directory file whose stored content is unmodelled, is `none`. -/
def readDirVia (d : Disk) (chain : List (Int × FileHdr)) : Option (List DirEntry) :=
  match chain.head? with
  | none => none
  | some (s, h) =>
    let w := min DirectoryFileSize h.numBytes.toNat
    if w = 0 then some emptyDirTable
    else if w % sizeofDirectoryEntry = 0 then
      let ne := w / sizeofDirectoryEntry
      match alLookup d.dirs s with
      | none => none
      | some stored =>
        if stored.length = NumDirEntries then
          some (stored.take ne ++ emptyDirTable.drop ne)
        else none
    else none

/-- `new OpenFile(s)` followed by `Directory::FetchFrom`. -/
def readDirFile (d : Disk) (s : Int) : Option (List DirEntry) :=
  match fetchChain d s with
  | none => none
  | some chain => readDirVia d chain

/-- `Directory::WriteBack(file)` through the `OpenFile` whose header chain
(read when the `OpenFile` was constructed) is `chain`: `WriteAt` stores
`min(DirectoryFileSize, length)` bytes, i.e. the first entries of `tbl`
over the previous content.  Returns the updated disk and the data sectors
written. -/
def writeDirVia (d : Disk) (chain : List (Int × FileHdr)) (tbl : List DirEntry) :
    Option (Disk × List Int) :=
  match chain.head? with
  | none => none
  | some (s, h) =>
    let w := min DirectoryFileSize h.numBytes.toNat
    match fileWriteSectors chain w with
    | none => none
    | some secs =>
      if w = 0 then some (d, [])
      else if w % sizeofDirectoryEntry = 0 then
        let ne := w / sizeofDirectoryEntry
        if NumDirEntries ≤ ne then
          some ({ d with dirs := alUpdate d.dirs s tbl }, secs)
        else
          match alLookup d.dirs s with
          | none => none
          | some old =>
            if old.length = NumDirEntries then
              some ({ d with dirs := alUpdate d.dirs s (tbl.take ne ++ old.drop ne) }, secs)
            else none
      else none

/-- `PersistentBitmap(freeMapFile, NumSectors)`: fetch the free map from
the free-map file (whose header chain is `fmchain`).  A partial read
(header shorter than the bitmap) leaves garbage bits: unmodelled. -/
def loadFreeMapVia (d : Disk) (fmchain : List (Int × FileHdr)) : Option (List Bool) :=
  match fmchain.head? with
  | none => none
  | some (_, h) =>
    if FreeMapFileSize ≤ h.numBytes.toNat ∧ d.freemap.length = NumSectors then
      some d.freemap
    else none

/-- `PersistentBitmap::WriteBack(freeMapFile)`: store the bits through the
free-map file's header chain. -/
def writeFreeMapVia (d : Disk) (fmchain : List (Int × FileHdr)) (fm : List Bool) :
    Option (Disk × List Int) :=
  match fmchain.head? with
  | none => none
  | some (_, h) =>
    if FreeMapFileSize ≤ h.numBytes.toNat then
      match fileWriteSectors fmchain FreeMapFileSize with
      | none => none
      | some secs => some ({ d with freemap := fm }, secs)
    else none

/-- `Bitmap::FindAndSet`: lowest clear bit, set it; `-1` when saturated. -/
def bitmapFindAndSet (fm : List Bool) : Int × List Bool :=
  match fm.findIdx? (fun b => !b) with
  | some i => ((i : Int), fm.set i true)
  | none => (-1, fm)

/-- `Bitmap::Clear(which)`: asserts `0 <= which < numBits`. -/
def bitmapClear (fm : List Bool) (which : Int) : Option (List Bool) :=
  if 0 ≤ which ∧ which < (NumSectors : Int) then some (fm.set which.toNat false)
  else none

def clearSectors (fm : List Bool) : List Int → Option (List Bool)
  | [] => some fm
  | s :: ss =>
    match bitmapClear fm s with
    | none => none
    | some fm1 => clearSectors fm1 ss

namespace Directory

/-- `Directory::FindIndex` (directory.cc:93): index of the first in-use
entry whose name matches under `strncmp(·, ·, FileNameMaxLen)`. -/
def FindIndex (tbl : List DirEntry) (name : List Char) : Int :=
  match tbl.findIdx? (fun e => e.inUse && strncmpEq e.name name FileNameMaxLen) with
  | some i => (i : Int)
  | none => -1

/-- `Directory::Find` (directory.cc:111). -/
def Find (tbl : List DirEntry) (name : List Char) : Int :=
  let i := FindIndex tbl name
  if i ≠ -1 then ((tbl.getD i.toNat emptyDirEntry).sector) else -1

/-- Modelled from the spec: the two-argument `Directory::Find(name,
&dirFlag)` overload used by `FileSystem::Remove` (declared in
`directory.h`, which is not under `src/`): `sector, is_dir =
parent.find(leaf)`, `none` when absent. -/
def FindEnt (tbl : List DirEntry) (name : List Char) : Option DirEntry :=
  tbl.find? (fun e => e.inUse && strncmpEq e.name name FileNameMaxLen)

/-- `Directory::Add` (directory.cc:204): fail (`none`, table unchanged) on
a duplicate name or a full table; otherwise fill the first free slot,
copying at most `FileNameMaxLen` characters of the name. -/
def Add (tbl : List DirEntry) (name : List Char) (newSector : Int) (directoryFlag : Bool) :
    Option (List DirEntry) :=
  if FindIndex tbl name ≠ -1 then none
  else
    match tbl.findIdx? (fun e => !e.inUse) with
    | some i =>
      some (tbl.set i
        { inUse := true, directoryFlag := directoryFlag, sector := newSector,
          name := name.take FileNameMaxLen })
    | none => none

/-- `Directory::Remove` (directory.cc:231): mark the slot free;
`none` renders the `FALSE` (not found) result. -/
def Remove (tbl : List DirEntry) (name : List Char) : Option (List DirEntry) :=
  let i := FindIndex tbl name
  if i = -1 then none
  else
    match tbl.get? i.toNat with
    | some e => some (tbl.set i.toNat { e with inUse := false })
    | none => none

/-- `Directory::Find_r` (directory.cc:121).  Asserts the path starts with
`'/'`; on the one-character path `"/"` returns `rootSector`; otherwise
splits the slash-prefixed segment up to the next `'/'` (or the end of the
string) into the 10-byte `buff` (overflow of which is undefined
behaviour, `none`), scans the table for the first in-use entry matching
under the bounded comparison, and either returns its sector (final
segment), recurses into the child directory read from its sector, or
yields `-1` when the segment is absent.

Each recursion level consumes at least one character of the path, so the
explicit fuel makes the recursion structural; any fuel at least the path
length is exact (callers pass the path length, and the characterization
theorems hold for every fuel). -/
def Find_r (d : Disk) : Nat → List DirEntry → List Char → Int → Option Int
  | 0, _, _, _ => none
  | fuel + 1, tbl, name, rootSector =>
    match name with
    | [] => none
    | c :: rest =>
      if c = '/' then
        if rest.isEmpty then some rootSector
        else
          match strchrPos '/' rest with
          | some j =>
            if FileNameMaxLen < j + 1 then none
            else
              let buff := (c :: rest).take (j + 1)
              let remain := (c :: rest).drop (j + 1)
              match tbl.find? (fun e => e.inUse && strncmpEq e.name buff FileNameMaxLen) with
              | none => some (-1)
              | some e =>
                if remain.isEmpty then some e.sector
                else
                  match readDirFile d e.sector with
                  | none => none
                  | some child => Find_r d fuel child remain rootSector
          | none =>
            if FileNameMaxLen < (c :: rest).length then none
            else
              match tbl.find? (fun e => e.inUse && strncmpEq e.name (c :: rest) FileNameMaxLen) with
              | none => some (-1)
              | some e => some e.sector
      else none

/-- The length of the first path segment including its leading slash: the
source's `nextSlashPos` in `Find_r` when a further slash exists, otherwise
the whole remaining string (`len`). -/
def segLen (name : List Char) : Nat :=
  match name with
  | [] => 0
  | _ :: rest =>
    match strchrPos '/' rest with
    | some j => j + 1
    | none => rest.length + 1

end Directory

namespace FileHeader

/-- Modelled from the spec: successive `find_and_set` reservations; on
shortage report failure (the caller discards the half-mutated in-memory
map, which restores all-or-nothing behaviour). -/
def reserveSectors (fm : List Bool) : Nat → Option (List Int × List Bool)
  | 0 => some ([], fm)
  | k + 1 =>
    match bitmapFindAndSet fm with
    | (s, fm1) =>
      if s = -1 then none
      else
        match reserveSectors fm1 k with
        | none => none
        | some (rest, fm2) => some (s :: rest, fm2)

/-- Modelled from the spec: split the reserved data sectors into
`NumDirect`-sized header loads, chaining through the reserved header
sectors. -/
def buildChain : Int → List Int → List Int → FileHdr × List (Int × FileHdr)
  | size, data, [] =>
    ({ numBytes := size, dataSectors := data, nextHeaderSector := -1 }, [])
  | size, data, h :: hs =>
    if data.length ≤ NumDirect then
      ({ numBytes := size, dataSectors := data, nextHeaderSector := -1 }, [])
    else
      let next := buildChain (size - ((NumDirect * SectorSize : Nat) : Int)) (data.drop NumDirect) hs
      ({ numBytes := size, dataSectors := data.take NumDirect, nextHeaderSector := h },
        (h, next.1) :: next.2)

/-- Modelled from the spec: `FileHeader::Allocate(freeMap, size)`
(`filehdr.cc` is not under `src/`).  Reserves `ceil(size / SectorSize)`
data sectors via `find_and_set`, plus one extra sector per chained header
when more than `NumDirect` are needed; failure is a normal return. -/
def Allocate (fm : List Bool) (size : Int) : Option (FileHdr × List (Int × FileHdr) × List Bool) :=
  let k := ceilDiv size.toNat SectorSize
  let nh := if k ≤ NumDirect then 0 else ceilDiv (k - NumDirect) NumDirect
  match reserveSectors fm (k + nh) with
  | none => none
  | some (secs, fm1) =>
    let b := buildChain size (secs.take k) (secs.drop k)
    some (b.1, b.2, fm1)

/-- Modelled from the spec: `FileHeader::Deallocate(freeMap)` clears all
data sectors and the chained-header sectors of the chain; the caller
additionally clears the head header's own sector. -/
def Deallocate (fm : List Bool) (chain : List (Int × FileHdr)) : Option (List Bool) :=
  match clearSectors fm (chainData chain) with
  | none => none
  | some fm1 => clearSectors fm1 ((chain.drop 1).map (fun p => p.1))

/-- `hdr->WriteBack(sector)`: serialize the in-memory header (chain) to
its sector(s); per spec §9 the chain is persisted in sector order. -/
def writeHdrChain (d : Disk) (sector : Int) (head : FileHdr)
    (extras : List (Int × FileHdr)) : Disk × List Int :=
  let d1 : Disk := { d with hdrs := alUpdate d.hdrs sector head }
  let d2 := extras.foldl (fun dd p => { dd with hdrs := alUpdate dd.hdrs p.1 p.2 }) d1
  (d2, sector :: extras.map (fun p => p.1))

end FileHeader

namespace FileSystem

/-- `FileSystem::GetBaseName` (filesys.cc:547): everything before the last
`'/'`, or `"/"` when the last slash is the first character.  A name with
no slash makes `strrchr` return `NULL` and the position computation
undefined. -/
def GetBaseName (name : List Char) : Option (List Char) :=
  match strrchrPos '/' name with
  | none => none
  | some p => if p = 0 then some ['/'] else some (name.take p)

/-- `FileSystem::GetFileName` (filesys.cc:567): the suffix starting at the
last `'/'` (inclusive). -/
def GetFileName (name : List Char) : Option (List Char) :=
  match strrchrPos '/' name with
  | none => none
  | some p => some (name.drop p)

/-- `FileSystem::Create` (filesys.cc:190).  Returns the C return value,
the resulting disk, and the sectors written, in order; `none` is an
undefined-behaviour path (the uninitialized `success` returned when the
parent lookup fails, or the uninitialized `sector` used by the trailing
`directoryFlag` block after the duplicate-name branch). -/
def Create (d : Disk) (name : List Char) (initialSize0 : Int) (directoryFlag : Bool) :
    Option (Bool × Disk × List Int) := do
  let initialSize : Int := if directoryFlag then (DirectoryFileSize : Int) else initialSize0
  let rootTbl ← readDirFile d DirectorySector
  let basename ← GetBaseName name
  let baseSector ← Directory.Find_r d basename.length rootTbl basename DirectorySector
  if 0 ≤ baseSector then do
    let bchain ← fetchChain d baseSector
    let baseTbl ← readDirVia d bchain
    let filename ← GetFileName name
    let inner : Option (Bool × Option Int × Disk × List Int) :=
      if Directory.Find baseTbl filename ≠ -1 then
        some (false, none, d, [])
      else
        match fetchChain d FreeMapSector with
        | none => none
        | some fmchain =>
          match loadFreeMapVia d fmchain with
          | none => none
          | some fm =>
            match bitmapFindAndSet fm with
            | (sector, fm1) =>
              if sector = -1 then some (false, some sector, d, [])
              else
                match Directory.Add baseTbl filename sector directoryFlag with
                | none => some (false, some sector, d, [])
                | some baseTbl1 =>
                  match FileHeader.Allocate fm1 initialSize with
                  | none => some (false, some sector, d, [])
                  | some (hdr, extras, fm2) =>
                    match FileHeader.writeHdrChain d sector hdr extras with
                    | (da, trH) =>
                      match writeDirVia da bchain baseTbl1 with
                      | none => none
                      | some (db, trD) =>
                        match writeFreeMapVia db fmchain fm2 with
                        | none => none
                        | some (dc, trF) =>
                          some (true, some sector, dc, trH ++ trD ++ trF)
    let (success, sectorOpt, d1, tr1) ← inner
    if directoryFlag then do
      let sector ← sectorOpt
      let nchain ← fetchChain d1 sector
      let (d2, trN) ← writeDirVia d1 nchain emptyDirTable
      some (success, d2, tr1 ++ trN)
    else
      some (success, d1, tr1)
  else
    none

/-- Lines 440–467 of `FileSystem::Remove`: fetch the leaf's header chain,
`Deallocate` it, clear every header sector of the chain, remove the leaf
from the (stale in-memory) parent table — an `ASSERT` in the source — and
flush the free map and the parent directory, in that order. -/
def removeFinish (d1 : Disk) (bchain : List (Int × FileHdr)) (baseTbl : List DirEntry)
    (filename : List Char) (sector : Int) : Option (Bool × Disk × List Int) := do
  let chain ← fetchChain d1 sector
  let fmchain ← fetchChain d1 FreeMapSector
  let fm0 ← loadFreeMapVia d1 fmchain
  let fm1 ← FileHeader.Deallocate fm0 chain
  let fm2 ← clearSectors fm1 (chain.map (fun p => p.1))
  let baseTbl1 ← Directory.Remove baseTbl filename
  let (d2, trF) ← writeFreeMapVia d1 fmchain fm2
  let (d3, trB) ← writeDirVia d2 bchain baseTbl1
  some (true, d3, trF ++ trB)

/-- `FileSystem::Remove` (filesys.cc:376).  The fuel bounds the recursion
depth (the C code would loop forever on a cyclic directory graph; one
fuel unit is consumed per directory level, so any fuel exceeding the tree
depth is exact); the result is the C return value, the resulting disk,
and the sectors written.  A leaf that is a directory fails (`FALSE`,
nothing written) unless `recursiveFlag`; with `recursiveFlag` the `for`
loop of lines 423–432 recurses into `Remove` on the synthesized path
`name + entry.name` (no separator inserted) for every in-use entry of the
leaf directory, threading the disk and discarding each recursive result,
before the leaf itself is torn down. -/
def Remove : Nat → Disk → List Char → Bool → Option (Bool × Disk × List Int)
  | 0, _, _, _ => none
  | fuel + 1, d, name, recursiveFlag => do
    let rootTbl ← readDirFile d DirectorySector
    let basename ← GetBaseName name
    let baseSector ← Directory.Find_r d basename.length rootTbl basename DirectorySector
    if baseSector = -1 then some (false, d, [])
    else do
      let bchain ← fetchChain d baseSector
      let baseTbl ← readDirVia d bchain
      let filename ← GetFileName name
      match Directory.FindEnt baseTbl filename with
      | none => some (false, d, [])
      | some ent =>
        if ¬recursiveFlag ∧ ent.directoryFlag then some (false, d, [])
        else do
          let (d1, tr1) ←
            if recursiveFlag ∧ ent.directoryFlag then do
              let dchain ← fetchChain d ent.sector
              let subTbl ← readDirVia d dchain
              let (da, tra) ← subTbl.foldl
                (fun acc e =>
                  match acc with
                  | none => none
                  | some (dd, tr) =>
                    if e.inUse then
                      match Remove fuel dd (name ++ e.name) recursiveFlag with
                      | none => none
                      | some (_, dd1, tre) => some (dd1, tr ++ tre)
                    else some (dd, tr))
                (some (d, ([] : List Int)))
              let (db, trb) ← writeDirVia da dchain subTbl
              some (db, tra ++ trb)
            else some (d, ([] : List Int))
          let (res, d3, tr2) ← removeFinish d1 bchain baseTbl filename ent.sector
          some (res, d3, tr1 ++ tr2)

/-- The recursive phase of the claim about `Remove`, written
independently of the source loop: run `Remove` over an explicit list of
synthesized paths, threading the disk, discarding each result flag and
concatenating the write traces. -/
def removeSeq (fuel : Nat) : Disk → List (List Char) → Option (Disk × List Int)
  | d, [] => some (d, [])
  | d, p :: ps =>
    match Remove fuel d p true with
    | none => none
    | some (_, d1, tr1) =>
      match removeSeq fuel d1 ps with
      | none => none
      | some (d2, tr2) => some (d2, tr1 ++ tr2)

end FileSystem

/-! ## Descriptor table (`filesys.cc:322-361`) -/

/-- Modelled from the spec: `MAXOPENFILES` is implementation-defined
(`filesys.h` is not under `src/`); no theorem depends on its exact value
beyond it being positive. -/
def MAXOPENFILES : Nat := 20

/-- The descriptor-table state: the rotating cursor (spelled as in the
source) and `fileDescriptorTable[0 .. MAXOPENFILES]`; an `OpenFile*` slot
is abstracted to an opaque handle, `none` being `NULL`. -/
structure FDState where
  fileDescritporIndex : Nat
  fileDescriptorTable : List (Option Nat)
deriving DecidableEq, Repr

namespace FileSystem

/-- `FileSystem::Read` (filesys.cc:322).  The successful branch delegates
to `OpenFile::Read` (not under `src/`), abstracted by `ofRead`. -/
def Read (ofRead : Nat → Int) (st : FDState) (id : Int) : Int :=
  if id ≤ 0 ∨ (MAXOPENFILES : Int) < id then -1
  else
    match st.fileDescriptorTable.getD id.toNat none with
    | none => -1
    | some f => ofRead f

/-- `FileSystem::Write` (filesys.cc:331), abstracting `OpenFile::Write`. -/
def Write (ofWrite : Nat → Int) (st : FDState) (id : Int) : Int :=
  if id ≤ 0 ∨ (MAXOPENFILES : Int) < id then -1
  else
    match st.fileDescriptorTable.getD id.toNat none with
    | none => -1
    | some f => ofWrite f

/-- `FileSystem::Close` (filesys.cc:339): release the `OpenFile`, clear
the slot, return 1; `-1` on a bad id or an empty slot. -/
def Close (st : FDState) (id : Int) : FDState × Int :=
  if id ≤ 0 ∨ (MAXOPENFILES : Int) < id then (st, -1)
  else
    match st.fileDescriptorTable.getD id.toNat none with
    | none => (st, -1)
    | some _ => ({ st with fileDescriptorTable := st.fileDescriptorTable.set id.toNat none }, 1)

/-- The `while` loop of `FileSystem::PutFileDescriptor` (filesys.cc:353):
each probe pre-increments the cursor and rejects residue 0 and occupied
slots; after `MAXOPENFILES` failed probes the next failure gives up
(`none`, the source's `return 0`). -/
def putFDLoop (tbl : List (Option Nat)) (fdIdx cnt : Nat) : Nat × Option Nat :=
  let index := (fdIdx + 1) % MAXOPENFILES
  if index = 0 ∨ (tbl.getD index none).isSome then
    if cnt < MAXOPENFILES then putFDLoop tbl (fdIdx + 1) (cnt + 1)
    else (fdIdx + 1, none)
  else (fdIdx + 1, some index)
  termination_by MAXOPENFILES + 1 - cnt

/-- `FileSystem::PutFileDescriptor` (filesys.cc:349). -/
def PutFileDescriptor (st : FDState) (fileDesc : Nat) : FDState × Int :=
  match putFDLoop st.fileDescriptorTable st.fileDescritporIndex 0 with
  | (i, none) => ({ st with fileDescritporIndex := i }, 0)
  | (i, some idx) =>
    ({ fileDescritporIndex := i,
       fileDescriptorTable := st.fileDescriptorTable.set idx (some fileDesc) }, (idx : Int))

end FileSystem

/-! ## Concrete witness inputs

Concrete threads, scheduler states, descriptor tables and disks used by
the witness and counterexample theorems below. -/

/-- Spec scenario 5: T1 running with (pri 120, est 100). -/
def exT1 : Thread :=
  { id := 1, priority := 120, guessCPUBurst := 100, lastCPUTick := 0,
    cpuBurst := 0, status := ThStatus.RUNNING }

/-- Spec scenario 5: T2 arriving with (pri 120, est 10). -/
def exT2 : Thread :=
  { id := 2, priority := 120, guessCPUBurst := 10, lastCPUTick := 0,
    cpuBurst := 0, status := ThStatus.READY }

def exSchedW : SchedState :=
  { readyList := [], priorityList := [exT1], sjfList := [], current := exT2,
    now := 0, yieldOnReturn := false }

def exSched6 : SchedState :=
  { readyList := [], priorityList := [], sjfList := [], current := exT1,
    now := 1500, yieldOnReturn := false }

def exFDTable : FDState :=
  { fileDescritporIndex := 0,
    fileDescriptorTable := none :: some 7 :: List.replicate (MAXOPENFILES - 1) none }

def exDirEnt : DirEntry :=
  { inUse := true, directoryFlag := true, sector := 30, name := ['/', 'd'] }

def exDirTbl : List DirEntry := [exDirEnt]

def exDisk0 : Disk := { hdrs := [], dirs := [], freemap := [] }

/-- Header of the free-map file at sector 0: one data sector (2). -/
def exFmHdr : FileHdr := { numBytes := 128, dataSectors := [2], nextHeaderSector := -1 }

/-- Header of the root directory file at sector 1: 12 data sectors. -/
def exRootHdr : FileHdr :=
  { numBytes := (DirectoryFileSize : Int),
    dataSectors := [3, 4, 5, 6, 7, 8, 9, 10, 11, 12, 13, 14], nextHeaderSector := -1 }

/-- A disk with an empty root directory (for the C8 failing input). -/
def exDisk8 : Disk :=
  { hdrs := [(FreeMapSector, exFmHdr), (DirectorySector, exRootHdr)],
    dirs := [(DirectorySector, emptyDirTable)],
    freemap := [] }

/-- A root directory whose 64 entries are all in use (names `"/a"`),
so `Directory::Add` must fail. -/
def exFullEnt : DirEntry :=
  { inUse := true, directoryFlag := false, sector := 5, name := ['/', 'a'] }

def exFullTbl : List DirEntry := List.replicate NumDirEntries exFullEnt

/-- A stale header left at sector 20 (e.g. by an earlier `Remove`, which
frees the bits but does not erase the header bytes): 48 bytes long with
data sector 21. -/
def exStaleHdr : FileHdr := { numBytes := 48, dataSectors := [21], nextHeaderSector := -1 }

/-- The C1 counterexample disk: full root directory, free map whose first
free sector is 20, and a stale header at sector 20. -/
def exDisk1 : Disk :=
  { hdrs := [(FreeMapSector, exFmHdr), (DirectorySector, exRootHdr), (20, exStaleHdr)],
    dirs := [(DirectorySector, exFullTbl), (20, emptyDirTable)],
    freemap := List.replicate 20 true ++ List.replicate 1004 false }

/-- A root directory holding one file entry `"/x"` (for the C1 witness:
a duplicate-name failure of a non-directory create). -/
def exDupEnt : DirEntry :=
  { inUse := true, directoryFlag := false, sector := 25, name := ['/', 'x'] }

def exDisk9 : Disk :=
  { hdrs := [(FreeMapSector, exFmHdr), (DirectorySector, exRootHdr)],
    dirs := [(DirectorySector, exDupEnt :: List.replicate 63 emptyDirEntry)],
    freemap := [] }

def exDirHdr30 : FileHdr :=
  { numBytes := (DirectoryFileSize : Int),
    dataSectors := [15, 16, 17, 18, 19, 20, 21, 22, 23, 24, 25, 26],
    nextHeaderSector := -1 }

def exFileHdr40 : FileHdr := { numBytes := 100, dataSectors := [41], nextHeaderSector := -1 }

def exSubdirEnt : DirEntry :=
  { inUse := true, directoryFlag := true, sector := 30, name := ['/', 'd'] }

def exFileEnt : DirEntry :=
  { inUse := true, directoryFlag := false, sector := 40, name := ['/', 'f'] }

def exRootTbl2 : List DirEntry := exSubdirEnt :: List.replicate 63 emptyDirEntry

def exSubTbl2 : List DirEntry := exFileEnt :: List.replicate 63 emptyDirEntry

def exDisk2 : Disk :=
  { hdrs := [(FreeMapSector, exFmHdr), (DirectorySector, exRootHdr), (30, exDirHdr30),
      (40, exFileHdr40)],
    dirs := [(DirectorySector, exRootTbl2), (30, exSubTbl2)],
    freemap := List.replicate 1024 true }

/-! ### C5 witness inputs and the queue-occupancy invariant -/

/-- `t` sits in queue `k` and its id occurs in no other queued record:
the rendering of "the `Thread*` pointer `t` is linked into exactly one
ready queue".  The first conjunct pins every queued record carrying the
id to be this record in this queue; the second pins the occurrence count
in queue `k` to one. -/
def soleEntry (st : SchedState) (r : Thread) (k : Nat) : Prop :=
  (∀ j : Fin 3, ∀ u ∈ Scheduler.getQueue st j.val, u.id = r.id → (j.val = k ∧ u = r)) ∧
  (Scheduler.getQueue st k).filter (fun u => u.id = r.id) = [r]

instance instDecSoleEntry (st : SchedState) (r : Thread) (k : Nat) :
    Decidable (soleEntry st r k) := by
  unfold soleEntry
  infer_instance

/-- Aging scenario: stale thread in the rr queue whose aged priority 55
crosses `LEVEL_GAP`. -/
def exT10 : Thread :=
  { id := 10, priority := 45, guessCPUBurst := 7, lastCPUTick := 0,
    cpuBurst := 3, status := ThStatus.READY }

/-- Aging scenario: stale thread in the rr queue whose aged priority 40
stays below `LEVEL_GAP`. -/
def exT11 : Thread :=
  { id := 11, priority := 30, guessCPUBurst := 5, lastCPUTick := 200,
    cpuBurst := 2, status := ThStatus.READY }

/-- Aging scenario: fresh thread in the sjf queue. -/
def exT12 : Thread :=
  { id := 12, priority := 120, guessCPUBurst := 4, lastCPUTick := 900,
    cpuBurst := 1, status := ThStatus.READY }

def exCur5 : Thread :=
  { id := 1, priority := 80, guessCPUBurst := 9, lastCPUTick := 1900,
    cpuBurst := 4, status := ThStatus.RUNNING }

def exSched5 : SchedState :=
  { readyList := [exT10, exT11], priorityList := [], sjfList := [exT12],
    current := exCur5, now := 2000, yieldOnReturn := false }

/-- The state `Scheduler::Aging` produces from `exSched5`: thread 10 aged
to priority 55 and moved into the priority queue, thread 11 aged to 40 in
place with its tick restamped, thread 12 untouched. -/
def exSched5' : SchedState :=
  { readyList := [{ exT11 with priority := 40, lastCPUTick := 2000 }],
    priorityList :=
      [{ exT10 with priority := 55, lastCPUTick := 2000, status := ThStatus.READY }],
    sjfList := [exT12], current := exCur5, now := 2000, yieldOnReturn := false }

/-! ## Helper lemmas on the C string primitives -/

theorem strncmpEq_iff_take : ∀ (a b : List Char) (n : Nat),
    strncmpEq a b n = true ↔ a.take n = b.take n
  | _, _, 0 => by simp [strncmpEq]
  | [], [], _ + 1 => by simp [strncmpEq]
  | [], _ :: _, _ + 1 => by simp [strncmpEq]
  | _ :: _, [], _ + 1 => by simp [strncmpEq]
  | x :: xs, y :: ys, n + 1 => by
    simp only [strncmpEq, List.take_succ_cons, List.cons.injEq]
    by_cases h : x = y
    · simp [h, strncmpEq_iff_take xs ys n]
    · simp [h]

theorem strchrPos_none_iff (c : Char) : ∀ l : List Char, strchrPos c l = none ↔ c ∉ l
  | [] => by simp [strchrPos]
  | x :: xs => by
    simp only [strchrPos, List.mem_cons]
    by_cases h : x = c
    · simp [h]
    · have hs := strchrPos_none_iff c xs
      simp only [h, if_false, Option.map_eq_none', hs]
      constructor
      · intro hn hor
        rcases hor with hor | hor
        · exact h hor.symm
        · exact hn hor
      · intro hn
        exact fun hm => hn (Or.inr hm)

theorem strchrPos_some_spec (c : Char) : ∀ (l : List Char) (j : Nat),
    strchrPos c l = some j →
      l.get? j = some c ∧ ∀ i, i < j → l.get? i ≠ some c
  | [], j => by simp [strchrPos]
  | x :: xs, j => by
    simp only [strchrPos]
    by_cases h : x = c
    · rw [if_pos h]
      intro hj
      obtain rfl : (0 : Nat) = j := by simpa using hj
      subst h
      exact ⟨rfl, fun i hi => by omega⟩
    · rw [if_neg h]
      intro hj
      rcases hmap : strchrPos c xs with _ | j0
      · rw [hmap] at hj; simp at hj
      · rw [hmap] at hj
        simp only [Option.map_some', Option.some.injEq] at hj
        subst hj
        obtain ⟨h1, h2⟩ := strchrPos_some_spec c xs j0 hmap
        refine ⟨by simpa using h1, ?_⟩
        intro i hi
        cases i with
        | zero =>
          simp only [List.get?_cons_zero, ne_eq, Option.some.injEq]
          exact fun he => h he
        | succ i0 =>
          simp only [List.get?_cons_succ]
          exact h2 i0 (by omega)

theorem mem_take_exists (c : Char) : ∀ (l : List Char) (j : Nat),
    c ∈ l.take j → ∃ i, i < j ∧ l.get? i = some c
  | _, 0 => by simp
  | [], _ + 1 => by simp
  | x :: xs, j + 1 => by
    simp only [List.take_succ_cons, List.mem_cons]
    rintro (rfl | hm)
    · exact ⟨0, by omega, rfl⟩
    · obtain ⟨i, hi, hg⟩ := mem_take_exists c xs j hm
      exact ⟨i + 1, by omega, by simpa using hg⟩

theorem head?_drop_eq_get? : ∀ (l : List Char) (n : Nat), (l.drop n).head? = l.get? n
  | [], n => by cases n <;> simp
  | _ :: _, 0 => by simp
  | _ :: xs, n + 1 => by
    rw [List.drop_succ_cons, List.get?_cons_succ]
    exact head?_drop_eq_get? xs n

/-! ## Shared comparison lemmas -/

theorem Scheduler.compareSJF_lt_zero (a b : Thread) :
    Scheduler.CompareSJF a b < 0 ↔
      (a.guessCPUBurst < b.guessCPUBurst ∨
        (a.guessCPUBurst = b.guessCPUBurst ∧ a.id < b.id)) := by
  unfold Scheduler.CompareSJF Scheduler.CompareThreadID
  split_ifs <;> omega

theorem Scheduler.comparePriority_lt_zero (a b : Thread) :
    Scheduler.ComparePriority a b < 0 ↔
      (b.priority < a.priority ∨ (a.priority = b.priority ∧ a.id < b.id)) := by
  unfold Scheduler.ComparePriority Scheduler.CompareThreadID
  simp only
  split_ifs <;> omega

/-! ## Claims -/

/-- **C3.** For every pair of threads `(cur, cand)` with priorities in
`[0, 149]`, `isPreempted(cur, cand)` returns true iff: when both
priorities are at least `2 * LEVEL_GAP` (= 100), `cand` precedes `cur` in
SJF order (strictly smaller estimated burst, or equal burst and strictly
smaller id); otherwise `cand` precedes `cur` in priority order (strictly
higher priority, or equal priority and strictly smaller id). -/
theorem C3_isPreempted_order (cur cand : Thread)
    (_hcur : cur.priority ≤ 149) (_hcand : cand.priority ≤ 149) :
    Scheduler.isPreempted cur cand = true ↔
      (if 2 * LEVEL_GAP ≤ cur.priority ∧ 2 * LEVEL_GAP ≤ cand.priority then
        cand.guessCPUBurst < cur.guessCPUBurst ∨
          (cand.guessCPUBurst = cur.guessCPUBurst ∧ cand.id < cur.id)
      else
        cur.priority < cand.priority ∨
          (cand.priority = cur.priority ∧ cand.id < cur.id)) := by
  unfold Scheduler.isPreempted
  have hL : Scheduler.L1_LOWERBOUND = 2 * LEVEL_GAP := by
    unfold Scheduler.L1_LOWERBOUND LEVEL_GAP; norm_num
  rw [hL]
  split_ifs with h
  · simp [Scheduler.compareSJF_lt_zero]
  · simp [Scheduler.comparePriority_lt_zero]

/-- The candidate preempts at L1 by smaller burst (spec scenario 5). -/
theorem C3_witness : Scheduler.isPreempted exT1 exT2 = true :=
  (C3_isPreempted_order exT1 exT2 (by decide) (by decide)).mpr (by decide)

/-- **C4.** `FindNextToRun` returns `NONE` iff all three ready queues
(sjf, priority, rr) are empty; otherwise it removes and returns the front
element of the first non-empty queue examined in the fixed order sjf,
then priority, then rr, leaving the other queues unchanged. -/
theorem C4_findNextToRun (st : SchedState) :
    (Scheduler.FindNextToRun st = none ↔
      st.sjfList = [] ∧ st.priorityList = [] ∧ st.readyList = []) ∧
    (∀ t ts, st.sjfList = t :: ts →
      Scheduler.FindNextToRun st = some (t, { st with sjfList := ts })) ∧
    (∀ t ts, st.sjfList = [] → st.priorityList = t :: ts →
      Scheduler.FindNextToRun st = some (t, { st with priorityList := ts })) ∧
    (∀ t ts, st.sjfList = [] → st.priorityList = [] → st.readyList = t :: ts →
      Scheduler.FindNextToRun st = some (t, { st with readyList := ts })) := by
  refine ⟨?_, ?_, ?_, ?_⟩
  · unfold Scheduler.FindNextToRun
    rcases hs : st.sjfList with _ | ⟨t, ts⟩ <;>
      rcases hp : st.priorityList with _ | ⟨u, us⟩ <;>
        rcases hr : st.readyList with _ | ⟨v, vs⟩ <;> simp
  · intro t ts hs
    unfold Scheduler.FindNextToRun
    rw [hs]
  · intro t ts hs hp
    unfold Scheduler.FindNextToRun
    rw [hs, hp]
  · intro t ts hs hp hr
    unfold Scheduler.FindNextToRun
    rw [hs, hp, hr]

theorem C4_witness :
    Scheduler.FindNextToRun exSchedW = some (exT1, { exSchedW with priorityList := [] }) :=
  (C4_findNextToRun exSchedW).2.2.1 exT1 [] rfl rfl

/-- **C6.** When `Demote` runs and the current thread's burst
`now - last_cpu_tick` is at least `DEMOTE_LIMIT_TICK`: the burst is added
to the thread's accumulated `cpuBurst` and its `lastCPUTick` is reset to
`now`; additionally, if the thread's tier `k = priority / LEVEL_GAP` is
positive, its priority is set to `k * LEVEL_GAP - 1` (which lies in
`[(k-1) * LEVEL_GAP, k * LEVEL_GAP)`) and a yield-on-return is requested.
If the burst is below the limit, nothing at all is changed. -/
theorem C6_demote (st : SchedState) :
    (DEMOTE_LIMIT_TICK ≤ st.now - st.current.lastCPUTick →
      (0 < st.current.priority / LEVEL_GAP →
        Scheduler.Demote st =
          { st with
              current :=
                { st.current with
                    lastCPUTick := st.now,
                    cpuBurst := st.current.cpuBurst + (st.now - st.current.lastCPUTick),
                    priority := (st.current.priority / LEVEL_GAP) * LEVEL_GAP - 1 },
              yieldOnReturn := true } ∧
        (st.current.priority / LEVEL_GAP - 1) * LEVEL_GAP ≤
            (st.current.priority / LEVEL_GAP) * LEVEL_GAP - 1 ∧
        (st.current.priority / LEVEL_GAP) * LEVEL_GAP - 1 <
            (st.current.priority / LEVEL_GAP) * LEVEL_GAP) ∧
      (st.current.priority / LEVEL_GAP = 0 →
        Scheduler.Demote st =
          { st with
              current :=
                { st.current with
                    lastCPUTick := st.now,
                    cpuBurst := st.current.cpuBurst + (st.now - st.current.lastCPUTick) } })) ∧
    (st.now - st.current.lastCPUTick < DEMOTE_LIMIT_TICK → Scheduler.Demote st = st) := by
  refine ⟨fun hb => ⟨fun hk => ⟨?_, ?_, ?_⟩, fun hk => ?_⟩, fun hb => ?_⟩
  · simp only [Scheduler.Demote]
    rw [if_pos hb, if_pos hk]
  · simp only [LEVEL_GAP] at hk ⊢; omega
  · simp only [LEVEL_GAP] at hk ⊢; omega
  · simp only [Scheduler.Demote]
    rw [if_pos hb, if_neg (by omega)]
  · simp only [Scheduler.Demote]
    rw [if_neg (by omega)]

theorem C6_witness :
    Scheduler.Demote exSched6 =
      { exSched6 with
          current := { exT1 with lastCPUTick := 1500, cpuBurst := 1500, priority := 99 },
          yieldOnReturn := true } := by
  have h := (((C6_demote exSched6).1 (by decide)).1 (by decide)).1
  rw [h]
  rfl

/-! ### C9: descriptor-table operations -/

theorem putFDLoop_some_bound (tbl : List (Option Nat)) :
    ∀ n cnt fdIdx i idx, MAXOPENFILES + 1 - cnt ≤ n →
      FileSystem.putFDLoop tbl fdIdx cnt = (i, some idx) →
      1 ≤ idx ∧ idx < MAXOPENFILES ∧ tbl.getD idx none = none := by
  intro n
  induction n with
  | zero =>
    intro cnt fdIdx i idx hle h
    unfold FileSystem.putFDLoop at h
    by_cases hc : (fdIdx + 1) % MAXOPENFILES = 0 ∨ (tbl.getD ((fdIdx + 1) % MAXOPENFILES) none).isSome
    · rw [if_pos hc] at h
      rw [if_neg (by simp only [MAXOPENFILES] at hle ⊢; omega)] at h
      simp at h
    · rw [if_neg hc] at h
      push_neg at hc
      obtain ⟨h0, hocc⟩ := hc
      simp only [Prod.mk.injEq, Option.some.injEq] at h
      obtain ⟨hi, hidx⟩ := h
      subst hidx
      refine ⟨by omega, Nat.mod_lt _ (by simp [MAXOPENFILES]), by simpa using hocc⟩
  | succ n ih =>
    intro cnt fdIdx i idx hle h
    unfold FileSystem.putFDLoop at h
    by_cases hc : (fdIdx + 1) % MAXOPENFILES = 0 ∨ (tbl.getD ((fdIdx + 1) % MAXOPENFILES) none).isSome
    · rw [if_pos hc] at h
      by_cases hcnt : cnt < MAXOPENFILES
      · rw [if_pos hcnt] at h
        exact ih (cnt + 1) (fdIdx + 1) i idx (by omega) h
      · rw [if_neg hcnt] at h
        simp at h
    · rw [if_neg hc] at h
      push_neg at hc
      obtain ⟨h0, hocc⟩ := hc
      simp only [Prod.mk.injEq, Option.some.injEq] at h
      obtain ⟨hi, hidx⟩ := h
      subst hidx
      refine ⟨by omega, Nat.mod_lt _ (by simp [MAXOPENFILES]), by simpa using hocc⟩

theorem putFDLoop_full_none (tbl : List (Option Nat))
    (hfull : ∀ j, 1 ≤ j → j < MAXOPENFILES → (tbl.getD j none).isSome) :
    ∀ n cnt fdIdx, MAXOPENFILES + 1 - cnt ≤ n →
      (FileSystem.putFDLoop tbl fdIdx cnt).2 = none := by
  intro n
  induction n with
  | zero =>
    intro cnt fdIdx hle
    unfold FileSystem.putFDLoop
    have hc : (fdIdx + 1) % MAXOPENFILES = 0 ∨
        (tbl.getD ((fdIdx + 1) % MAXOPENFILES) none).isSome := by
      by_cases h0 : (fdIdx + 1) % MAXOPENFILES = 0
      · exact Or.inl h0
      · exact Or.inr (hfull _ (by omega) (Nat.mod_lt _ (by simp [MAXOPENFILES])))
    rw [if_pos hc, if_neg (by simp only [MAXOPENFILES] at hle ⊢; omega)]
  | succ n ih =>
    intro cnt fdIdx hle
    unfold FileSystem.putFDLoop
    have hc : (fdIdx + 1) % MAXOPENFILES = 0 ∨
        (tbl.getD ((fdIdx + 1) % MAXOPENFILES) none).isSome := by
      by_cases h0 : (fdIdx + 1) % MAXOPENFILES = 0
      · exact Or.inl h0
      · exact Or.inr (hfull _ (by omega) (Nat.mod_lt _ (by simp [MAXOPENFILES])))
    rw [if_pos hc]
    by_cases hcnt : cnt < MAXOPENFILES
    · rw [if_pos hcnt]
      exact ih (cnt + 1) (fdIdx + 1) (by omega)
    · rw [if_neg hcnt]

/-- **C9.** Descriptor-table operations: `Read(buf, n, id)`,
`Write(buf, n, id)` and `Close(id)` each return `-1` whenever `id` is
outside `1 ≤ id ≤ MAXOPENFILES` or the slot for `id` is empty, and
`Close` on a valid occupied id releases the `OpenFile`, clears the slot,
and returns 1; `PutFileDescriptor` never hands out id 0 (a non-zero
result is a freshly filled, previously empty slot; a zero result fills
nothing), and when no free slot can be found after a full sweep of the
table it returns 0. -/
theorem C9_descriptor_ops :
    (∀ (ofRead : Nat → Int) (st : FDState) (id : Int),
      id ≤ 0 ∨ (MAXOPENFILES : Int) < id ∨ st.fileDescriptorTable.getD id.toNat none = none →
      FileSystem.Read ofRead st id = -1) ∧
    (∀ (ofWrite : Nat → Int) (st : FDState) (id : Int),
      id ≤ 0 ∨ (MAXOPENFILES : Int) < id ∨ st.fileDescriptorTable.getD id.toNat none = none →
      FileSystem.Write ofWrite st id = -1) ∧
    (∀ (st : FDState) (id : Int),
      id ≤ 0 ∨ (MAXOPENFILES : Int) < id ∨ st.fileDescriptorTable.getD id.toNat none = none →
      FileSystem.Close st id = (st, -1)) ∧
    (∀ (st : FDState) (id : Int) (f : Nat),
      1 ≤ id → id ≤ (MAXOPENFILES : Int) →
      st.fileDescriptorTable.getD id.toNat none = some f →
      FileSystem.Close st id =
        ({ st with fileDescriptorTable := st.fileDescriptorTable.set id.toNat none }, 1)) ∧
    (∀ (st : FDState) (fd : Nat) (st1 : FDState) (r : Int),
      FileSystem.PutFileDescriptor st fd = (st1, r) →
      (r = 0 ∧ st1.fileDescriptorTable = st.fileDescriptorTable) ∨
      (∃ idx : Nat, r = (idx : Int) ∧ 1 ≤ idx ∧ idx < MAXOPENFILES ∧
        st.fileDescriptorTable.getD idx none = none ∧
        st1.fileDescriptorTable = st.fileDescriptorTable.set idx (some fd))) ∧
    (∀ (st : FDState) (fd : Nat),
      (∀ j, 1 ≤ j → j < MAXOPENFILES → (st.fileDescriptorTable.getD j none).isSome) →
      (FileSystem.PutFileDescriptor st fd).2 = 0) := by
  refine ⟨?_, ?_, ?_, ?_, ?_, ?_⟩
  · intro ofRead st id h
    unfold FileSystem.Read
    rcases h with h | h | h
    · rw [if_pos (Or.inl h)]
    · rw [if_pos (Or.inr h)]
    · by_cases hid : id ≤ 0 ∨ (MAXOPENFILES : Int) < id
      · rw [if_pos hid]
      · rw [if_neg hid, h]
  · intro ofWrite st id h
    unfold FileSystem.Write
    rcases h with h | h | h
    · rw [if_pos (Or.inl h)]
    · rw [if_pos (Or.inr h)]
    · by_cases hid : id ≤ 0 ∨ (MAXOPENFILES : Int) < id
      · rw [if_pos hid]
      · rw [if_neg hid, h]
  · intro st id h
    unfold FileSystem.Close
    rcases h with h | h | h
    · rw [if_pos (Or.inl h)]
    · rw [if_pos (Or.inr h)]
    · by_cases hid : id ≤ 0 ∨ (MAXOPENFILES : Int) < id
      · rw [if_pos hid]
      · rw [if_neg hid, h]
  · intro st id f h1 h2 hocc
    unfold FileSystem.Close
    rw [if_neg (by omega), hocc]
  · intro st fd st1 r h
    unfold FileSystem.PutFileDescriptor at h
    rcases hl : FileSystem.putFDLoop st.fileDescriptorTable st.fileDescritporIndex 0 with ⟨i, oidx⟩
    rcases oidx with _ | idx
    · rw [hl] at h
      left
      refine ⟨?_, ?_⟩ <;> · injection h with h1 h2; subst h1; subst h2; rfl
    · rw [hl] at h
      right
      obtain ⟨hb1, hb2, hb3⟩ :=
        putFDLoop_some_bound st.fileDescriptorTable (MAXOPENFILES + 1) 0
          st.fileDescritporIndex i idx (by omega) hl
      refine ⟨idx, ?_, hb1, hb2, hb3, ?_⟩ <;>
        · injection h with h1 h2; subst h1; subst h2; rfl
  · intro st fd hfull
    unfold FileSystem.PutFileDescriptor
    rcases hl : FileSystem.putFDLoop st.fileDescriptorTable st.fileDescritporIndex 0 with ⟨i, oidx⟩
    have h2 := putFDLoop_full_none st.fileDescriptorTable hfull (MAXOPENFILES + 1) 0
      st.fileDescritporIndex (by omega)
    rw [hl] at h2
    simp at h2
    subst h2
    rfl

theorem C9_witness :
    FileSystem.Read (fun _ => 5) exFDTable 0 = -1 ∧
    FileSystem.Close exFDTable 1 =
      ({ exFDTable with
          fileDescriptorTable := exFDTable.fileDescriptorTable.set 1 none }, 1) ∧
    (FileSystem.PutFileDescriptor exFDTable 9).2 = 2 := by
  refine ⟨?_, ?_, ?_⟩
  · exact C9_descriptor_ops.1 (fun _ => 5) exFDTable 0 (Or.inl (by decide))
  · exact C9_descriptor_ops.2.2.2.1 exFDTable 1 7 (by decide) (by decide) (by decide)
  · have hloop :
        FileSystem.putFDLoop exFDTable.fileDescriptorTable exFDTable.fileDescritporIndex 0 =
          (2, some 2) := by
      simp [FileSystem.putFDLoop, exFDTable, MAXOPENFILES, List.replicate_succ]
    unfold FileSystem.PutFileDescriptor
    rw [hloop]
    rfl

/-! ### C7: recursive path lookup -/

/-- Unfolding of `Find_r` on a path with a second slash. -/
theorem find_r_slash_some (d : Disk) (tbl : List DirEntry) (rootSector : Int) (fuel : Nat)
    (rest : List Char) (j : Nat) (hne : rest.isEmpty = false)
    (hsp : strchrPos '/' rest = some j) :
    Directory.Find_r d (fuel + 1) tbl ('/' :: rest) rootSector =
      (if FileNameMaxLen < j + 1 then none
      else
        match tbl.find?
            (fun e => e.inUse && strncmpEq e.name (('/' :: rest).take (j + 1)) FileNameMaxLen) with
        | none => some (-1)
        | some e =>
          if (('/' :: rest).drop (j + 1)).isEmpty then some e.sector
          else
            match readDirFile d e.sector with
            | none => none
            | some child =>
              Directory.Find_r d fuel child (('/' :: rest).drop (j + 1)) rootSector) := by
  simp only [Directory.Find_r, hsp, hne, if_true, Bool.false_eq_true, if_false]

/-- Unfolding of `Find_r` on a path whose tail has no further slash. -/
theorem find_r_slash_none (d : Disk) (tbl : List DirEntry) (rootSector : Int) (fuel : Nat)
    (rest : List Char) (hne : rest.isEmpty = false)
    (hsp : strchrPos '/' rest = none) :
    Directory.Find_r d (fuel + 1) tbl ('/' :: rest) rootSector =
      (if FileNameMaxLen < ('/' :: rest).length then none
      else
        match tbl.find? (fun e => e.inUse && strncmpEq e.name ('/' :: rest) FileNameMaxLen) with
        | none => some (-1)
        | some e => some e.sector) := by
  simp only [Directory.Find_r, hsp, hne, if_true, Bool.false_eq_true, if_false]

/-- **C7.** Recursive path lookup (`Directory::Find_r`) requires the path
to begin with `'/'`; on the exact path `"/"` it returns `root_sector`;
otherwise it splits off the first segment (up to the next `'/'` or the
end of the string: the segment is slash-prefixed, contains no further
slash, and the rest of the path is empty or slash-prefixed), looks that
segment up among the in-use entries of the current table with a
comparison bounded to `FileNameMaxLen` (equality of the first
`FileNameMaxLen` characters), returns that entry's sector if the segment
is the final one, recurses into the child directory on the remaining
suffix if it is not, and returns `NONE` (`-1`) if the segment is absent.
The fuel only bounds the recursion depth; all equations hold for every
fuel. -/
theorem C7_find_r_lookup (d : Disk) (tbl : List DirEntry) (rootSector : Int) :
    (∀ fuel, Directory.Find_r d (fuel + 1) tbl ['/'] rootSector = some rootSector) ∧
    (∀ fuel (name : List Char), name.head? ≠ some '/' →
      Directory.Find_r d fuel tbl name rootSector = none) ∧
    (∀ a b : List Char, strncmpEq a b FileNameMaxLen = true ↔
      a.take FileNameMaxLen = b.take FileNameMaxLen) ∧
    (∀ fuel (rest : List Char), rest ≠ [] → ∀ k seg remain,
      k = Directory.segLen ('/' :: rest) →
      seg = ('/' :: rest).take k →
      remain = ('/' :: rest).drop k →
      ((seg.head? = some '/' ∧ '/' ∉ seg.drop 1 ∧ seg ++ remain = '/' :: rest ∧
        (remain = [] ∨ remain.head? = some '/')) ∧
      (k ≤ FileNameMaxLen →
        ((∀ e ∈ tbl, ¬(e.inUse = true ∧ strncmpEq e.name seg FileNameMaxLen = true)) →
          Directory.Find_r d (fuel + 1) tbl ('/' :: rest) rootSector = some (-1)) ∧
        (∀ e, tbl.find? (fun x => x.inUse && strncmpEq x.name seg FileNameMaxLen) = some e →
          (remain = [] →
            Directory.Find_r d (fuel + 1) tbl ('/' :: rest) rootSector = some e.sector) ∧
          (remain ≠ [] →
            Directory.Find_r d (fuel + 1) tbl ('/' :: rest) rootSector =
              match readDirFile d e.sector with
              | none => none
              | some child => Directory.Find_r d fuel child remain rootSector))))) := by
  refine ⟨?_, ?_, ?_, ?_⟩
  · intro fuel
    rfl
  · intro fuel name h
    cases fuel with
    | zero => rfl
    | succ f =>
      cases name with
      | nil => rfl
      | cons c rest =>
        have hc : c ≠ '/' := fun hcc => h (by rw [hcc]; rfl)
        simp only [Directory.Find_r]
        rw [if_neg hc]
  · intro a b
    exact strncmpEq_iff_take a b FileNameMaxLen
  · intro fuel rest hrest k seg remain hk hseg hrem
    have hempty : rest.isEmpty = false := by
      cases rest with
      | nil => exact absurd rfl hrest
      | cons r rs => rfl
    rcases hsp : strchrPos '/' rest with _ | j
    · -- no further slash: the segment is the whole string
      have hkv : k = rest.length + 1 := by rw [hk]; simp [Directory.segLen, hsp]
      have hlen : ('/' :: rest).length = rest.length + 1 := rfl
      have hsegv : seg = '/' :: rest := by
        rw [hseg, hkv, ← hlen, List.take_length]
      have hremv : remain = [] := by
        rw [hrem, hkv, ← hlen, List.drop_length]
      subst hsegv
      subst hremv
      refine ⟨⟨rfl, ?_, by simp, Or.inl rfl⟩, ?_⟩
      · simpa using (strchrPos_none_iff '/' rest).mp hsp
      · intro hkb
        have hguard : ¬(FileNameMaxLen < ('/' :: rest).length) := by omega
        constructor
        · intro habs
          rw [find_r_slash_none d tbl rootSector fuel rest hempty hsp, if_neg hguard]
          rw [List.find?_eq_none.mpr (fun x hx => by
            simp only [Bool.and_eq_true]
            exact fun hb => habs x hx ⟨hb.1, hb.2⟩)]
        · intro e hfind
          refine ⟨fun _ => ?_, fun hne2 => absurd rfl hne2⟩
          rw [find_r_slash_none d tbl rootSector fuel rest hempty hsp, if_neg hguard, hfind]
    · -- a further slash at position j + 1 of the path
      obtain ⟨hgj, hmin⟩ := strchrPos_some_spec '/' rest j hsp
      have hkv : k = j + 1 := by rw [hk]; simp [Directory.segLen, hsp]
      have hsegv : seg = '/' :: rest.take j := by rw [hseg, hkv, List.take_succ_cons]
      have hremv : remain = rest.drop j := by rw [hrem, hkv, List.drop_succ_cons]
      subst hsegv
      subst hremv
      refine ⟨⟨rfl, ?_, ?_, Or.inr ?_⟩, ?_⟩
      · simp only [List.drop_succ_cons, List.drop_zero]
        intro hmem
        obtain ⟨i, hi, hg⟩ := mem_take_exists '/' rest j hmem
        exact hmin i hi hg
      · simp [List.take_append_drop]
      · rw [head?_drop_eq_get?]
        exact hgj
      · intro hkb
        have hguard : ¬(FileNameMaxLen < j + 1) := by omega
        constructor
        · intro habs
          rw [find_r_slash_some d tbl rootSector fuel rest j hempty hsp, if_neg hguard]
          simp only [List.take_succ_cons]
          rw [List.find?_eq_none.mpr (fun x hx => by
            simp only [Bool.and_eq_true]
            exact fun hb => habs x hx ⟨hb.1, hb.2⟩)]
        · intro e hfind
          constructor
          · intro hre
            rw [find_r_slash_some d tbl rootSector fuel rest j hempty hsp, if_neg hguard]
            simp only [List.take_succ_cons, List.drop_succ_cons]
            rw [hfind, hre]
            rfl
          · intro hre
            rw [find_r_slash_some d tbl rootSector fuel rest j hempty hsp, if_neg hguard]
            simp only [List.take_succ_cons, List.drop_succ_cons]
            rw [hfind]
            have hie : (rest.drop j).isEmpty = false := by
              cases hd : rest.drop j with
              | nil => exact absurd hd hre
              | cons a as => rfl
            rw [hie]
            simp only [Bool.false_eq_true, if_false]

theorem C7_witness :
    Directory.Find_r exDisk0 2 exDirTbl ['/', 'd'] 1 = some 30 ∧
    Directory.Find_r exDisk0 3 exDirTbl ['/'] 1 = some 1 := by
  constructor
  · have h := (C7_find_r_lookup exDisk0 exDirTbl 1).2.2.2 1 ['d'] (by decide)
      2 ['/', 'd'] [] (by decide) (by decide) (by decide)
    exact ((h.2 (by decide)).2 exDirEnt (by decide)).1 rfl
  · exact (C7_find_r_lookup exDisk0 exDirTbl 1).1 2

/-! ### C8: create with an unresolvable parent -/

set_option maxRecDepth 40000 in
/-- **C8** (code bug).  The claim says a `Create` whose parent path does
not resolve returns `FALSE`; the source instead returns the local
`success` without ever assigning it (undefined behaviour, modelled as
`none`): on a disk with an empty root, `Create("/d/f", 10, false)` takes
the `baseSector < 0` path and returns the uninitialized value. -/
theorem C8_create_missing_parent_undefined :
    FileSystem.Create exDisk8 ['/', 'd', '/', 'f'] 10 false = none := by decide

/-! ### C1: all-or-nothing on failure -/

set_option maxRecDepth 100000 in
/-- **C1** (counterexample).  A failed directory create does write disk
sectors: on `exDisk1` the root is full, so `Create("/x", 0, TRUE)` fails
in `Directory::Add`, yet the trailing `if (directoryFlag)` block of
`FileSystem::Create` (filesys.cc:255-264) still writes an empty
directory table through the stale header found at the freshly chosen
sector 20 — data sector 21 is written although the call returns `FALSE`. -/
theorem C1_counterexample :
    (FileSystem.Create exDisk1 ['/', 'x'] 0 true).map (fun r => (r.1, r.2.2)) =
      some (false, [21]) := by decide

/-- **C1** (amended).  For every call to
`FileSystem::Create(name, initialSize, directoryFlag)` with
`directoryFlag = false` that returns failure, no sector of the disk is
written (neither the free map, nor any directory, nor any file header or
data sector), and the on-disk state after the failed `Create` equals the
on-disk state before it.  (With `directoryFlag = true` this fails: see
the counterexample.) -/
theorem C1_failed_create_writes_nothing (d : Disk) (name : List Char) (sz : Int)
    (res : Bool) (d1 : Disk) (ws : List Int)
    (h : FileSystem.Create d name sz false = some (res, d1, ws)) (hres : res = false) :
    d1 = d ∧ ws = [] := by
  subst hres
  unfold FileSystem.Create at h
  rcases hroot : readDirFile d DirectorySector with _ | rootTbl <;> rw [hroot] at h
  · exact absurd h (by simp)
  simp only [Option.bind_eq_bind, Option.some_bind] at h
  rcases hbase : FileSystem.GetBaseName name with _ | basename <;> rw [hbase] at h
  · exact absurd h (by simp)
  simp only [Option.bind_eq_bind, Option.some_bind] at h
  rcases hfind : Directory.Find_r d basename.length rootTbl basename DirectorySector
      with _ | baseSector <;> rw [hfind] at h
  · exact absurd h (by simp)
  simp only [Option.bind_eq_bind, Option.some_bind] at h
  by_cases h0 : 0 ≤ baseSector
  swap
  · rw [if_neg h0] at h
    exact absurd h (by simp)
  rw [if_pos h0] at h
  rcases hbch : fetchChain d baseSector with _ | bchain <;> rw [hbch] at h
  · exact absurd h (by simp)
  simp only [Option.bind_eq_bind, Option.some_bind] at h
  rcases hbt : readDirVia d bchain with _ | baseTbl <;> rw [hbt] at h
  · exact absurd h (by simp)
  simp only [Option.bind_eq_bind, Option.some_bind] at h
  rcases hfn : FileSystem.GetFileName name with _ | filename <;> rw [hfn] at h
  · exact absurd h (by simp)
  simp only [Option.bind_eq_bind, Option.some_bind, Bool.false_eq_true, if_false] at h
  by_cases hdup : Directory.Find baseTbl filename ≠ -1
  · rw [if_pos hdup] at h
    simp only [Option.bind_eq_bind, Option.some_bind, Option.some.injEq, Prod.mk.injEq] at h
    exact ⟨h.2.1.symm, h.2.2.symm⟩
  · rw [if_neg hdup] at h
    rcases hfm : fetchChain d FreeMapSector with _ | fmchain <;> rw [hfm] at h
    · exact absurd h (by simp)
    dsimp only at h
    rcases hlm : loadFreeMapVia d fmchain with _ | fm <;> rw [hlm] at h
    · exact absurd h (by simp)
    dsimp only at h
    rcases hfs : bitmapFindAndSet fm with ⟨sector, fm1⟩
    rw [hfs] at h
    dsimp only at h
    by_cases hsneg : sector = -1
    · rw [if_pos hsneg] at h
      simp only [Option.bind_eq_bind, Option.some_bind, Option.some.injEq, Prod.mk.injEq] at h
      exact ⟨h.2.1.symm, h.2.2.symm⟩
    · rw [if_neg hsneg] at h
      rcases hadd : Directory.Add baseTbl filename sector false with _ | baseTbl1 <;>
        rw [hadd] at h
      · simp only [Option.bind_eq_bind, Option.some_bind, Option.some.injEq,
          Prod.mk.injEq] at h
        exact ⟨h.2.1.symm, h.2.2.symm⟩
      · rcases hal : FileHeader.Allocate fm1 sz with _ | alloc <;> rw [hal] at h
        · simp only [Option.bind_eq_bind, Option.some_bind, Option.some.injEq,
            Prod.mk.injEq] at h
          exact ⟨h.2.1.symm, h.2.2.symm⟩
        · rcases alloc with ⟨hdr, extras, fm2⟩
          dsimp only at h
          rcases hwh : FileHeader.writeHdrChain d sector hdr extras with ⟨da, trH⟩
          rw [hwh] at h
          dsimp only at h
          rcases hwd : writeDirVia da bchain baseTbl1 with _ | dbtr <;> rw [hwd] at h
          · exact absurd h (by simp)
          rcases dbtr with ⟨db, trD⟩
          dsimp only at h
          rcases hwf : writeFreeMapVia db fmchain fm2 with _ | dctr <;> rw [hwf] at h
          · exact absurd h (by simp)
          rcases dctr with ⟨dc, trF⟩
          simp only [Option.bind_eq_bind, Option.some_bind, Option.some.injEq,
            Prod.mk.injEq] at h
          exact absurd h.1 (by simp)


set_option maxRecDepth 100000 in
theorem C1_witness :
    FileSystem.Create exDisk9 ['/', 'x'] 5 false = some (false, exDisk9, []) ∧
    (exDisk9 = exDisk9 ∧ ([] : List Int) = []) := by
  have hc : FileSystem.Create exDisk9 ['/', 'x'] 5 false = some (false, exDisk9, []) := by
    decide
  exact ⟨hc, C1_failed_create_writes_nothing exDisk9 ['/', 'x'] 5 false exDisk9 [] hc rfl⟩

/-! ### C2: recursive remove -/

theorem getD_set_false_of_false : ∀ (l : List Bool) (j i : Nat),
    l.getD i true = false → (l.set j false).getD i true = false
  | [], _, _ => by simp
  | x :: xs, 0, 0 => by simp [List.getD]
  | x :: xs, 0, i + 1 => by simp [List.getD]
  | x :: xs, j + 1, 0 => by simp [List.getD]
  | x :: xs, j + 1, i + 1 => by
    simp only [List.set, List.getD_cons_succ]
    exact getD_set_false_of_false xs j i

theorem getD_set_false_self : ∀ (l : List Bool) (j : Nat),
    j < l.length → (l.set j false).getD j true = false
  | [], _ => by simp
  | x :: xs, 0 => by simp [List.getD]
  | x :: xs, j + 1 => by
    intro h
    simp only [List.set, List.getD_cons_succ]
    exact getD_set_false_self xs j (by simpa using h)

theorem clearSectors_length : ∀ (l : List Int) (fm fm2 : List Bool),
    clearSectors fm l = some fm2 → fm2.length = fm.length
  | [], fm, fm2 => by
    simp only [clearSectors, Option.some.injEq]
    rintro rfl
    rfl
  | s :: ss, fm, fm2 => by
    simp only [clearSectors, bitmapClear]
    by_cases hr : 0 ≤ s ∧ s < (NumSectors : Int)
    · rw [if_pos hr]
      intro h
      have := clearSectors_length ss (fm.set s.toNat false) fm2 h
      simpa [List.length_set] using this
    · rw [if_neg hr]
      intro h
      simp at h

theorem clearSectors_preserves_false : ∀ (l : List Int) (fm fm2 : List Bool) (i : Nat),
    clearSectors fm l = some fm2 → fm.getD i true = false → fm2.getD i true = false
  | [], fm, fm2, i => by
    simp only [clearSectors, Option.some.injEq]
    rintro rfl
    exact id
  | s :: ss, fm, fm2, i => by
    simp only [clearSectors, bitmapClear]
    by_cases hr : 0 ≤ s ∧ s < (NumSectors : Int)
    · rw [if_pos hr]
      intro h hfalse
      exact clearSectors_preserves_false ss (fm.set s.toNat false) fm2 i h
        (getD_set_false_of_false fm s.toNat i hfalse)
    · rw [if_neg hr]
      intro h
      simp at h

theorem clearSectors_clears : ∀ (l : List Int) (fm fm2 : List Bool),
    fm.length = NumSectors → clearSectors fm l = some fm2 →
    ∀ s ∈ l, fm2.getD s.toNat true = false
  | [], fm, fm2 => by simp
  | t :: ts, fm, fm2 => by
    intro hlen h s hs
    simp only [clearSectors, bitmapClear] at h
    by_cases hr : 0 ≤ t ∧ t < (NumSectors : Int)
    · rw [if_pos hr] at h
      rcases List.mem_cons.mp hs with rfl | hmem
      · have hclear : (fm.set s.toNat false).getD s.toNat true = false :=
          getD_set_false_self fm s.toNat (by
            have : s.toNat < NumSectors := by omega
            omega)
        exact clearSectors_preserves_false ts (fm.set s.toNat false) fm2 s.toNat h hclear
      · exact clearSectors_clears ts (fm.set t.toNat false) fm2
          (by simpa [List.length_set] using hlen) h s hmem
    · rw [if_neg hr] at h
      simp at h

theorem loadFreeMapVia_some (d : Disk) (fmchain : List (Int × FileHdr)) (fm : List Bool)
    (h : loadFreeMapVia d fmchain = some fm) :
    fm = d.freemap ∧ fm.length = NumSectors := by
  unfold loadFreeMapVia at h
  rcases fmchain with _ | ⟨⟨s, hd⟩, rest⟩
  · simp at h
  · simp only [List.head?_cons] at h
    by_cases hc : FreeMapFileSize ≤ hd.numBytes.toNat ∧ d.freemap.length = NumSectors
    · rw [if_pos hc] at h
      obtain rfl : d.freemap = fm := by simpa using h
      exact ⟨rfl, hc.2⟩
    · rw [if_neg hc] at h
      simp at h

theorem writeFreeMapVia_freemap (d : Disk) (fmchain : List (Int × FileHdr)) (fm : List Bool)
    (d2 : Disk) (tr : List Int) (h : writeFreeMapVia d fmchain fm = some (d2, tr)) :
    d2.freemap = fm := by
  unfold writeFreeMapVia at h
  rcases fmchain with _ | ⟨⟨s, hd⟩, rest⟩
  · simp at h
  · simp only [List.head?_cons] at h
    by_cases hc : FreeMapFileSize ≤ hd.numBytes.toNat
    · rw [if_pos hc] at h
      rcases hws : fileWriteSectors ((s, hd) :: rest) FreeMapFileSize with _ | secs <;>
        rw [hws] at h
      · simp at h
      · simp only [Option.some.injEq, Prod.mk.injEq] at h
        rw [← h.1]
    · rw [if_neg hc] at h
      simp at h

theorem writeDirVia_freemap (d : Disk) (chain : List (Int × FileHdr)) (tbl : List DirEntry)
    (d2 : Disk) (tr : List Int) (h : writeDirVia d chain tbl = some (d2, tr)) :
    d2.freemap = d.freemap := by
  unfold writeDirVia at h
  rcases chain with _ | ⟨⟨s, hd⟩, rest⟩
  · simp at h
  · simp only [List.head?_cons] at h
    rcases hws : fileWriteSectors ((s, hd) :: rest) (min DirectoryFileSize hd.numBytes.toNat)
        with _ | secs <;> rw [hws] at h
    · simp at h
    dsimp only at h
    by_cases h0 : min DirectoryFileSize hd.numBytes.toNat = 0
    · rw [if_pos h0] at h
      simp only [Option.some.injEq, Prod.mk.injEq] at h
      rw [← h.1]
    · rw [if_neg h0] at h
      by_cases hmod : min DirectoryFileSize hd.numBytes.toNat % sizeofDirectoryEntry = 0
      · rw [if_pos hmod] at h
        by_cases hfull : NumDirEntries ≤ min DirectoryFileSize hd.numBytes.toNat / sizeofDirectoryEntry
        · rw [if_pos hfull] at h
          simp only [Option.some.injEq, Prod.mk.injEq] at h
          rw [← h.1]
        · rw [if_neg hfull] at h
          rcases hold : alLookup d.dirs s with _ | old <;> rw [hold] at h
          · simp at h
          dsimp only at h
          by_cases holen : old.length = NumDirEntries
          · rw [if_pos holen] at h
            simp only [Option.some.injEq, Prod.mk.injEq] at h
            rw [← h.1]
          · rw [if_neg holen] at h
            simp at h
      · rw [if_neg hmod] at h
        simp at h

theorem removeFoldl_none (fuel : Nat) (name : List Char) (rflag : Bool) :
    ∀ (l : List DirEntry),
      l.foldl (fun acc e =>
        match acc with
        | none => none
        | some (dd, tr0) =>
          if e.inUse then
            match FileSystem.Remove fuel dd (name ++ e.name) rflag with
            | none => none
            | some (_, dd1, tre) => some (dd1, tr0 ++ tre)
          else some (dd, tr0)) (none : Option (Disk × List Int)) = none
  | [] => rfl
  | e :: es => by
    simp only [List.foldl_cons]
    exact removeFoldl_none fuel name rflag es

theorem removeFoldl_eq_removeSeq (fuel : Nat) (name : List Char) :
    ∀ (l : List DirEntry) (d : Disk) (tr : List Int),
      l.foldl (fun acc e =>
        match acc with
        | none => none
        | some (dd, tr0) =>
          if e.inUse then
            match FileSystem.Remove fuel dd (name ++ e.name) true with
            | none => none
            | some (_, dd1, tre) => some (dd1, tr0 ++ tre)
          else some (dd, tr0)) (some (d, tr)) =
      (match FileSystem.removeSeq fuel d
          ((l.filter (fun e => e.inUse)).map (fun e => name ++ e.name)) with
       | none => none
       | some (d2, tr2) => some (d2, tr ++ tr2))
  | [], d, tr => by simp [FileSystem.removeSeq]
  | e :: es, d, tr => by
    by_cases he : e.inUse
    swap
    · have he2 : e.inUse = false := by simpa using he
      simp only [List.foldl_cons, List.filter_cons, he2, Bool.false_eq_true, if_false]
      exact removeFoldl_eq_removeSeq fuel name es d tr
    · simp only [List.foldl_cons, List.filter_cons, he, if_true, List.map_cons,
        FileSystem.removeSeq]
      rcases hrem : FileSystem.Remove fuel d (name ++ e.name) true with _ | res
      · simp only
        exact removeFoldl_none fuel name true es
      · rcases res with ⟨b, d1, tre⟩
        simp only
        rw [removeFoldl_eq_removeSeq fuel name es d1 (tr ++ tre)]
        rcases hseq : FileSystem.removeSeq fuel d1
            ((es.filter (fun e => e.inUse)).map (fun e => name ++ e.name)) with _ | r2
        · rw [hseq]
        · rcases r2 with ⟨d2, tr2⟩
          rw [hseq]
          simp [List.append_assoc]

set_option maxHeartbeats 2000000 in
/-- **C2.** For every call `FileSystem::Remove(path, recursive)` whose
leaf resolves to a directory entry: if `recursive` is false the call
fails (the IsDirectory case) without modifying any state (no disk write,
disk unchanged); if `recursive` is true, for every in-use entry `e` of
that directory, `Remove` is recursively invoked on the string
concatenation of `path` and `e.name` (with no separating `'/'`
inserted) — the source loop over the entry table equals `removeSeq` run
over exactly those synthesized paths — and afterwards the directory's
own header chain is deallocated (every chain-header sector and every
data sector of the chain is clear in the flushed free map) and the free
map and parent directory are flushed. -/
theorem C2_remove_recursive (fuel : Nat) (d : Disk) (name : List Char)
    (rootTbl : List DirEntry) (basename : List Char) (baseSector : Int)
    (bchain : List (Int × FileHdr)) (baseTbl : List DirEntry) (filename : List Char)
    (ent : DirEntry)
    (h1 : readDirFile d DirectorySector = some rootTbl)
    (h2 : FileSystem.GetBaseName name = some basename)
    (h3 : Directory.Find_r d basename.length rootTbl basename DirectorySector = some baseSector)
    (h4 : baseSector ≠ -1)
    (h5 : fetchChain d baseSector = some bchain)
    (h6 : readDirVia d bchain = some baseTbl)
    (h7 : FileSystem.GetFileName name = some filename)
    (h8 : Directory.FindEnt baseTbl filename = some ent)
    (h9 : ent.directoryFlag = true) :
    (FileSystem.Remove (fuel + 1) d name false = some (false, d, [])) ∧
    (∀ dchain subTbl, fetchChain d ent.sector = some dchain →
      readDirVia d dchain = some subTbl →
      FileSystem.Remove (fuel + 1) d name true =
        (match FileSystem.removeSeq fuel d
            ((subTbl.filter (fun e => e.inUse)).map (fun e => name ++ e.name)) with
         | none => none
         | some (da, tra) =>
           match writeDirVia da dchain subTbl with
           | none => none
           | some (db, trb) =>
             match FileSystem.removeFinish db bchain baseTbl filename ent.sector with
             | none => none
             | some (res, d3, tr2) => some (res, d3, tra ++ trb ++ tr2))) ∧
    (∀ d1 res d3 tr, FileSystem.removeFinish d1 bchain baseTbl filename ent.sector =
        some (res, d3, tr) →
      res = true ∧
      ∃ chain, fetchChain d1 ent.sector = some chain ∧
        (∀ s ∈ chain.map (fun p => p.1), d3.freemap.getD s.toNat true = false) ∧
        (∀ s ∈ chainData chain, d3.freemap.getD s.toNat true = false)) := by
  refine ⟨?_, ?_, ?_⟩
  · rw [FileSystem.Remove, h1]
    simp only [Option.bind_eq_bind, Option.some_bind]
    rw [h2]
    simp only [Option.some_bind]
    rw [h3]
    simp only [Option.some_bind]
    rw [if_neg h4]
    rw [h5]
    simp only [Option.some_bind]
    rw [h6]
    simp only [Option.some_bind]
    rw [h7]
    simp only [Option.some_bind]
    rw [h8]
    dsimp only
    rw [if_pos ⟨by simp, h9⟩]
  · intro dchain subTbl hdch hsub
    rw [FileSystem.Remove, h1]
    simp only [Option.bind_eq_bind, Option.some_bind]
    rw [h2]
    simp only [Option.some_bind]
    rw [h3]
    simp only [Option.some_bind]
    rw [if_neg h4]
    rw [h5]
    simp only [Option.some_bind]
    rw [h6]
    simp only [Option.some_bind]
    rw [h7]
    simp only [Option.some_bind]
    rw [h8]
    dsimp only
    rw [if_neg (by simp)]
    rw [if_pos (by simp [h9])]
    rw [hdch]
    simp only [Option.some_bind]
    rw [hsub]
    simp only [Option.some_bind]
    rw [removeFoldl_eq_removeSeq fuel name subTbl d []]
    generalize FileSystem.removeSeq fuel d
        ((subTbl.filter (fun e => e.inUse)).map (fun e => name ++ e.name)) = r1
    rcases r1 with _ | ⟨da, tra⟩
    · rfl
    · simp only [List.nil_append, Option.some_bind]
      generalize writeDirVia da dchain subTbl = r2
      rcases r2 with _ | ⟨db, trb⟩
      · rfl
      · simp only [Option.some_bind]
        generalize FileSystem.removeFinish db bchain baseTbl filename ent.sector = r3
        rcases r3 with _ | ⟨res, d3, tr2⟩
        · rfl
        · simp only [Option.some_bind]
  · intro d1 res d3 tr h
    unfold FileSystem.removeFinish at h
    rcases hch : fetchChain d1 ent.sector with _ | chain <;> rw [hch] at h
    · exact absurd h (by simp)
    simp only [Option.bind_eq_bind, Option.some_bind] at h
    rcases hfmc : fetchChain d1 FreeMapSector with _ | fmchain2 <;> rw [hfmc] at h
    · exact absurd h (by simp)
    simp only [Option.some_bind] at h
    rcases hlm : loadFreeMapVia d1 fmchain2 with _ | fm0 <;> rw [hlm] at h
    · exact absurd h (by simp)
    simp only [Option.some_bind] at h
    rcases hda : FileHeader.Deallocate fm0 chain with _ | fm1 <;> rw [hda] at h
    · exact absurd h (by simp)
    simp only [Option.some_bind] at h
    rcases hcs : clearSectors fm1 (chain.map (fun p => p.1)) with _ | fm2 <;> rw [hcs] at h
    · exact absurd h (by simp)
    simp only [Option.some_bind] at h
    rcases hdr : Directory.Remove baseTbl filename with _ | baseTbl1 <;> rw [hdr] at h
    · exact absurd h (by simp)
    simp only [Option.some_bind] at h
    rcases hwf : writeFreeMapVia d1 fmchain2 fm2 with _ | r4 <;> rw [hwf] at h
    · exact absurd h (by simp)
    rcases r4 with ⟨d2, trF⟩
    simp only [Option.some_bind] at h
    rcases hwb : writeDirVia d2 bchain baseTbl1 with _ | r5 <;> rw [hwb] at h
    · exact absurd h (by simp)
    rcases r5 with ⟨d3x, trB⟩
    simp only [Option.some_bind, Option.some.injEq, Prod.mk.injEq] at h
    obtain ⟨hres, hd3, htr⟩ := h
    subst hd3
    refine ⟨hres.symm, chain, rfl, ?_, ?_⟩
    · -- the header sectors of the chain are cleared by the explicit loop
      obtain ⟨hfm0, hfm0len⟩ := loadFreeMapVia_some d1 fmchain2 fm0 hlm
      have hfm1len : fm1.length = NumSectors := by
        unfold FileHeader.Deallocate at hda
        rcases hca : clearSectors fm0 (chainData chain) with _ | fma <;> rw [hca] at hda
        · simp at hda
        · have l1 := clearSectors_length (chainData chain) fm0 fma hca
          have l2 := clearSectors_length ((chain.drop 1).map (fun p => p.1)) fma fm1 hda
          omega
      have hcleared := clearSectors_clears (chain.map (fun p => p.1)) fm1 fm2 hfm1len hcs
      have hfree : d3x.freemap = fm2 := by
        rw [writeDirVia_freemap d2 bchain baseTbl1 d3x trB hwb]
        exact writeFreeMapVia_freemap d1 fmchain2 fm2 d2 trF hwf
      intro s hs
      rw [hfree]
      exact hcleared s hs
    · -- the data sectors are cleared by Deallocate and stay cleared
      obtain ⟨hfm0, hfm0len⟩ := loadFreeMapVia_some d1 fmchain2 fm0 hlm
      unfold FileHeader.Deallocate at hda
      rcases hca : clearSectors fm0 (chainData chain) with _ | fma <;> rw [hca] at hda
      · simp at hda
      have hdata := clearSectors_clears (chainData chain) fm0 fma hfm0len hca
      have hfree : d3x.freemap = fm2 := by
        rw [writeDirVia_freemap d2 bchain baseTbl1 d3x trB hwb]
        exact writeFreeMapVia_freemap d1 fmchain2 fm2 d2 trF hwf
      intro s hs
      rw [hfree]
      exact clearSectors_preserves_false (chain.map (fun p => p.1)) fm1 fm2 s.toNat hcs
        (clearSectors_preserves_false ((chain.drop 1).map (fun p => p.1)) fma fm1 s.toNat hda
          (hdata s hs))

set_option maxRecDepth 100000 in
theorem C2_witness :
    FileSystem.Remove 2 exDisk2 ['/', 'd'] false = some (false, exDisk2, []) ∧
    FileSystem.Remove 2 exDisk2 ['/', 'd'] true =
      (match FileSystem.removeSeq 1 exDisk2
          ((exSubTbl2.filter (fun e => e.inUse)).map (fun e => ['/', 'd'] ++ e.name)) with
       | none => none
       | some (da, tra) =>
         match writeDirVia da [(30, exDirHdr30)] exSubTbl2 with
         | none => none
         | some (db, trb) =>
           match FileSystem.removeFinish db [(DirectorySector, exRootHdr)] exRootTbl2
               ['/', 'd'] exSubdirEnt.sector with
           | none => none
           | some (res, d3, tr2) => some (res, d3, tra ++ trb ++ tr2)) := by
  have h := C2_remove_recursive 1 exDisk2 ['/', 'd'] exRootTbl2 ['/'] 1 [(DirectorySector, exRootHdr)]
    exRootTbl2 ['/', 'd'] exSubdirEnt (by decide) (by decide) (by decide) (by decide)
    (by decide) (by decide) (by decide) (by decide) (by decide)
  exact ⟨h.1, h.2.1 [(30, exDirHdr30)] exSubTbl2 (by decide) (by decide)⟩

theorem find_r_nil (d : Disk) (tbl : List DirEntry) (rs : Int) :
    ∀ f : Nat, Directory.Find_r d f tbl [] rs = none
  | 0 => rfl
  | _ + 1 => rfl

theorem find_r_not_slash (d : Disk) (tbl : List DirEntry) (rs : Int) (c : Char)
    (rest : List Char) (hc : c ≠ '/') :
    ∀ f : Nat, Directory.Find_r d f tbl (c :: rest) rs = none
  | 0 => rfl
  | _ + 1 => by
    simp only [Directory.Find_r]
    rw [if_neg hc]

theorem find_r_root (d : Disk) (tbl : List DirEntry) (rs : Int) :
    ∀ f : Nat, Directory.Find_r d (f + 1) tbl ['/'] rs = some rs :=
  fun _ => rfl

theorem strchrPos_append_some (c : Char) :
    ∀ (l m : List Char) (j : Nat), strchrPos c l = some j → strchrPos c (l ++ m) = some j
  | [], _, _ => by simp [strchrPos]
  | x :: xs, m, j => by
    simp only [strchrPos, List.cons_append, List.append_eq]
    by_cases hx : x = c
    · simp [hx]
    · rw [if_neg hx, if_neg hx]
      intro h
      rcases hxs : strchrPos c xs with _ | j0 <;> rw [hxs] at h
      · simp at h
      · simp only [Option.map_some', Option.some.injEq] at h
        rw [strchrPos_append_some c xs m j0 hxs]
        simpa using h

theorem strchrPos_append_head (c : Char) :
    ∀ (l m : List Char), strchrPos c l = none → strchrPos c (l ++ c :: m) = some l.length
  | [], m => by simp [strchrPos]
  | x :: xs, m => by
    simp only [strchrPos, List.cons_append, List.append_eq]
    by_cases hx : x = c
    · simp [hx]
    · rw [if_neg hx, if_neg hx]
      intro h
      rcases hxs : strchrPos c xs with _ | j0 <;> rw [hxs] at h
      · rw [strchrPos_append_head c xs m hxs]
        simp
      · simp at h

theorem getLast?_drop : ∀ (l : List Char) (j : Nat), l.drop j ≠ [] →
    (l.drop j).getLast? = l.getLast?
  | [], j => by simp
  | x :: xs, 0 => fun _ => rfl
  | x :: xs, j + 1 => by
    intro h
    simp only [List.drop_succ_cons] at h ⊢
    rw [getLast?_drop xs j h]
    rcases hxs : xs with _ | ⟨y, ys⟩
    · rw [hxs] at h
      simp at h
    · rw [List.getLast?_cons_cons]

theorem find_r_fuel_mono (d : Disk) (rs : Int) :
    ∀ (n : Nat) (name : List Char) (tbl : List DirEntry) (f1 f2 : Nat),
      name.length ≤ n → name.length ≤ f1 → name.length ≤ f2 →
      Directory.Find_r d f1 tbl name rs = Directory.Find_r d f2 tbl name rs := by
  intro n
  induction n with
  | zero =>
    intro name tbl f1 f2 hn h1 h2
    have hnil : name = [] := List.length_eq_zero.mp (by omega)
    subst hnil
    rw [find_r_nil, find_r_nil]
  | succ n ih =>
    intro name tbl f1 f2 hn h1 h2
    rcases name with _ | ⟨c, rest⟩
    · rw [find_r_nil, find_r_nil]
    by_cases hc : c = '/'
    swap
    · rw [find_r_not_slash d tbl rs c rest hc, find_r_not_slash d tbl rs c rest hc]
    subst hc
    obtain ⟨a, rfl⟩ : ∃ a, f1 = a + 1 := ⟨f1 - 1, by simp at h1; omega⟩
    obtain ⟨b, rfl⟩ : ∃ b, f2 = b + 1 := ⟨f2 - 1, by simp at h2; omega⟩
    rcases rest with _ | ⟨r0, rs0⟩
    · rfl
    have hempty : (r0 :: rs0).isEmpty = false := rfl
    rcases hsp : strchrPos '/' (r0 :: rs0) with _ | j
    · rw [find_r_slash_none d tbl rs a _ hempty hsp, find_r_slash_none d tbl rs b _ hempty hsp]
    · rw [find_r_slash_some d tbl rs a _ j hempty hsp,
        find_r_slash_some d tbl rs b _ j hempty hsp]
      by_cases hg : FileNameMaxLen < j + 1
      · rw [if_pos hg, if_pos hg]
      rw [if_neg hg, if_neg hg]
      generalize (tbl.find? fun e =>
        e.inUse && strncmpEq e.name (('/' :: r0 :: rs0).take (j + 1)) FileNameMaxLen) = r
      rcases r with _ | e
      · rfl
      dsimp only
      by_cases hrem : (('/' :: r0 :: rs0).drop (j + 1)).isEmpty
      · rw [if_pos hrem, if_pos hrem]
      rw [if_neg hrem, if_neg hrem]
      generalize readDirFile d e.sector = rc
      rcases rc with _ | child
      · rfl
      dsimp only
      exact ih _ child a b (by simp [List.length_drop] at hn ⊢; omega)
        (by simp [List.length_drop] at h1 ⊢; omega)
        (by simp [List.length_drop] at h2 ⊢; omega)

theorem alLookup_mem {α : Type} : ∀ (l : List (Int × α)) (s : Int) (v : α),
    alLookup l s = some v → (s, v) ∈ l
  | [], _, _ => by simp [alLookup]
  | (k, w) :: rest, s, v => by
    simp only [alLookup]
    by_cases hk : k = s
    · rw [if_pos hk]
      intro h
      obtain rfl : w = v := Option.some.inj h
      subst hk
      exact List.mem_cons_self _ _
    · rw [if_neg hk]
      intro h
      exact List.mem_cons_of_mem _ (alLookup_mem rest s v h)

theorem readDirFile_entries_wf (d : Disk)
    (hD : ∀ pr ∈ d.dirs, ∀ e ∈ pr.2, e.inUse = true → e.sector ≠ -1)
    (s : Int) (tb : List DirEntry) (h : readDirFile d s = some tb) :
    ∀ e ∈ tb, e.inUse = true → e.sector ≠ -1 := by
  unfold readDirFile at h
  rcases hch : fetchChain d s with _ | chain <;> rw [hch] at h
  · simp at h
  unfold readDirVia at h
  rcases chain with _ | ⟨⟨s0, hd⟩, rest⟩
  · simp at h
  simp only [List.head?_cons] at h
  by_cases h0 : min DirectoryFileSize hd.numBytes.toNat = 0
  · rw [if_pos h0] at h
    obtain rfl : emptyDirTable = tb := by simpa using h
    intro e he huse
    rw [List.eq_of_mem_replicate he] at huse
    simp [emptyDirEntry] at huse
  · rw [if_neg h0] at h
    by_cases hmod : min DirectoryFileSize hd.numBytes.toNat % sizeofDirectoryEntry = 0
    · rw [if_pos hmod] at h
      rcases hst : alLookup d.dirs s0 with _ | stored <;> rw [hst] at h
      · simp at h
      dsimp only at h
      by_cases hlen : stored.length = NumDirEntries
      · rw [if_pos hlen] at h
        obtain rfl :
            stored.take (min DirectoryFileSize hd.numBytes.toNat / sizeofDirectoryEntry) ++
              emptyDirTable.drop (min DirectoryFileSize hd.numBytes.toNat / sizeofDirectoryEntry) =
              tb := by simpa using h
        intro e he huse
        rcases List.mem_append.mp he with h1 | h2
        · exact hD (s0, stored) (alLookup_mem d.dirs s0 stored hst) e
            (List.mem_of_mem_take h1) huse
        · rw [List.eq_of_mem_replicate (List.mem_of_mem_drop h2)] at huse
          simp [emptyDirEntry] at huse
      · rw [if_neg hlen] at h
        simp at h
    · rw [if_neg hmod] at h
      simp at h

theorem find_r_append (d : Disk) (rs : Int)
    (hD : ∀ pr ∈ d.dirs, ∀ e ∈ pr.2, e.inUse = true → e.sector ≠ -1) :
    ∀ (n : Nat) (p q : List Char) (tbl : List DirEntry),
      p.length ≤ n →
      p.head? = some '/' → p.getLast? ≠ some '/' → q.head? = some '/' →
      (∀ e ∈ tbl, e.inUse = true → e.sector ≠ -1) →
      Directory.Find_r d (p ++ q).length tbl (p ++ q) rs =
        (Directory.Find_r d p.length tbl p rs).bind (fun s =>
          if s = -1 then some (-1)
          else (readDirFile d s).bind (fun c => Directory.Find_r d q.length c q rs)) := by
  intro n
  induction n with
  | zero =>
    intro p q tbl hn hph _ _ _
    have hnil : p = [] := List.length_eq_zero.mp (by omega)
    subst hnil
    simp at hph
  | succ n ih =>
    intro p q tbl hn hph hpl hqh htbl
    rcases p with _ | ⟨c, rest⟩
    · simp at hph
    obtain rfl : c = '/' := by simpa using hph
    rcases rest with _ | ⟨r0, rs0⟩
    · simp at hpl
    rcases q with _ | ⟨cq, restq⟩
    · simp at hqh
    obtain rfl : cq = '/' := by simpa using hqh
    have hempty : (r0 :: rs0).isEmpty = false := rfl
    have hempty2 : ((r0 :: rs0) ++ '/' :: restq).isEmpty = false := rfl
    rw [List.cons_append]
    rw [show ('/' :: ((r0 :: rs0) ++ '/' :: restq)).length =
      ((r0 :: rs0) ++ '/' :: restq).length + 1 from rfl]
    rw [show ('/' :: r0 :: rs0).length = (r0 :: rs0).length + 1 from rfl]
    rcases hsp : strchrPos '/' (r0 :: rs0) with _ | j
    · -- p is a single segment
      have hsp2 : strchrPos '/' ((r0 :: rs0) ++ '/' :: restq) = some (r0 :: rs0).length :=
        strchrPos_append_head '/' (r0 :: rs0) restq hsp
      rw [find_r_slash_some d tbl rs ((r0 :: rs0) ++ '/' :: restq).length
        ((r0 :: rs0) ++ '/' :: restq) (r0 :: rs0).length hempty2 hsp2]
      rw [find_r_slash_none d tbl rs (r0 :: rs0).length (r0 :: rs0) hempty hsp]
      have hseg : ('/' :: ((r0 :: rs0) ++ '/' :: restq)).take ((r0 :: rs0).length + 1) =
          '/' :: r0 :: rs0 := by
        rw [List.take_succ_cons, List.take_left]
      have hrem : ('/' :: ((r0 :: rs0) ++ '/' :: restq)).drop ((r0 :: rs0).length + 1) =
          '/' :: restq := by
        rw [List.drop_succ_cons, List.drop_left]
      rw [hseg, hrem]
      rw [show ('/' :: r0 :: rs0).length = (r0 :: rs0).length + 1 from rfl]
      by_cases hg : FileNameMaxLen < (r0 :: rs0).length + 1
      · rw [if_pos hg, if_pos hg]
        rfl
      rw [if_neg hg, if_neg hg]
      generalize hfind : (tbl.find? fun e =>
          e.inUse && strncmpEq e.name ('/' :: r0 :: rs0) FileNameMaxLen) = r
      rcases r with _ | e
      · rfl
      dsimp only
      have hes : e.sector ≠ -1 := by
        have hpred := List.find?_some hfind
        simp only [Bool.and_eq_true] at hpred
        exact htbl e (List.mem_of_find?_eq_some hfind) hpred.1
      rw [show (('/' :: restq).isEmpty) = false from rfl]
      simp only [Bool.false_eq_true, if_false, Option.some_bind]
      rw [if_neg hes]
      rcases hrc : readDirFile d e.sector with _ | child
      · rfl
      dsimp only [Option.some_bind]
      exact find_r_fuel_mono d rs ((r0 :: rs0) ++ '/' :: restq).length
        ('/' :: restq) child _ _
        (by simp only [List.length_append, List.length_cons]; omega)
        (by simp only [List.length_append, List.length_cons]; omega)
        (le_refl _)
    · -- p splits at the slash after position j
      obtain ⟨hgj, _⟩ := strchrPos_some_spec '/' (r0 :: rs0) j hsp
      have hjlt : j < (r0 :: rs0).length := by
        rcases List.get?_eq_some.mp hgj with ⟨hj, _⟩
        exact hj
      have hsp2 : strchrPos '/' ((r0 :: rs0) ++ '/' :: restq) = some j :=
        strchrPos_append_some '/' (r0 :: rs0) ('/' :: restq) j hsp
      rw [find_r_slash_some d tbl rs ((r0 :: rs0) ++ '/' :: restq).length
        ((r0 :: rs0) ++ '/' :: restq) j hempty2 hsp2]
      rw [find_r_slash_some d tbl rs (r0 :: rs0).length (r0 :: rs0) j hempty hsp]
      have hseg : ('/' :: ((r0 :: rs0) ++ '/' :: restq)).take (j + 1) =
          ('/' :: r0 :: rs0).take (j + 1) := by
        rw [List.take_succ_cons, List.take_succ_cons,
          List.take_append_of_le_length (le_of_lt hjlt)]
      rw [hseg]
      by_cases hg : FileNameMaxLen < j + 1
      · rw [if_pos hg, if_pos hg]
        rfl
      rw [if_neg hg, if_neg hg]
      generalize hfind : (tbl.find? fun e =>
          e.inUse && strncmpEq e.name (('/' :: r0 :: rs0).take (j + 1)) FileNameMaxLen) = r
      rcases r with _ | e
      · rfl
      dsimp only
      have hremeq : ('/' :: ((r0 :: rs0) ++ '/' :: restq)).drop (j + 1) =
          (r0 :: rs0).drop j ++ '/' :: restq := by
        rw [List.drop_succ_cons, List.drop_append_of_le_length (le_of_lt hjlt)]
      have hrp : ('/' :: r0 :: rs0).drop (j + 1) = (r0 :: rs0).drop j := by
        rw [List.drop_succ_cons]
      rw [hremeq, hrp]
      have hrpne : (r0 :: rs0).drop j ≠ [] := by
        intro hx
        have := List.drop_eq_nil_iff.mp hx
        omega
      have hrpq : ((r0 :: rs0).drop j ++ '/' :: restq).isEmpty = false := by
        rcases hd : (r0 :: rs0).drop j with _ | ⟨a, as⟩
        · exact absurd hd hrpne
        · rfl
      have hrpe : ((r0 :: rs0).drop j).isEmpty = false := by
        rcases hd : (r0 :: rs0).drop j with _ | ⟨a, as⟩
        · exact absurd hd hrpne
        · rfl
      rw [hrpq, hrpe]
      simp only [Bool.false_eq_true, if_false]
      rcases hrc : readDirFile d e.sector with _ | child
      · rfl
      dsimp only
      have hph2 : ((r0 :: rs0).drop j).head? = some '/' := by
        rw [head?_drop_eq_get?]
        exact hgj
      have hpl2 : ((r0 :: rs0).drop j).getLast? ≠ some '/' := by
        rw [getLast?_drop (r0 :: rs0) j hrpne]
        simpa using hpl
      have hchild : ∀ e2 ∈ child, e2.inUse = true → e2.sector ≠ -1 :=
        readDirFile_entries_wf d hD e.sector child hrc
      have hlen2 : ((r0 :: rs0).drop j).length ≤ n := by
        simp only [List.length_drop, List.length_cons]
        simp only [List.length_cons] at hn
        omega
      rw [find_r_fuel_mono d rs ((r0 :: rs0) ++ '/' :: restq).length
        ((r0 :: rs0).drop j ++ '/' :: restq) child
        ((r0 :: rs0) ++ '/' :: restq).length
        (((r0 :: rs0).drop j ++ '/' :: restq).length)
        (by simp only [List.length_append, List.length_cons, List.length_drop]; omega)
        (by simp only [List.length_append, List.length_cons, List.length_drop]; omega)
        (le_refl _)]
      rw [ih ((r0 :: rs0).drop j) ('/' :: restq) child hlen2 hph2 hpl2 rfl hchild]
      rw [find_r_fuel_mono d rs (r0 :: rs0).length ((r0 :: rs0).drop j) child
        (((r0 :: rs0).drop j).length) ((r0 :: rs0).length)
        (by simp only [List.length_drop]; omega)
        (le_refl _)
        (by simp only [List.length_drop]; omega)]


theorem strrchrPos_get (c : Char) : ∀ (l : List Char) (j : Nat),
    strrchrPos c l = some j → l.get? j = some c
  | [], j => by simp [strrchrPos]
  | x :: xs, j => by
    simp only [strrchrPos]
    rcases hxs : strrchrPos c xs with _ | j0
    · dsimp only
      by_cases hx : x = c
      · rw [if_pos hx]
        intro h
        obtain rfl : (0 : Nat) = j := by simpa using h
        simpa using hx
      · rw [if_neg hx]
        intro h
        simp at h
    · dsimp only
      intro h
      obtain rfl : j0 + 1 = j := by simpa using h
      rw [List.get?_cons_succ]
      exact strrchrPos_get c xs j0 hxs

/-- **C10.** Every name stored in a directory entry carries a leading `'/'`,
and this is what makes the recursive-remove path synthesis `path + e.name`
(no inserted separator) resolve correctly: (i) the leaf name extracted by
`FileSystem::GetFileName` starts at the last `'/'` inclusive, so it starts
with `'/'`; (ii) `Directory::Add` stores (a 9-character prefix of) the
slash-prefixed leaf it is given, so the all-names-slash-prefixed invariant
of a directory table is preserved; (iii) appending such an entry name to an
absolute path yields an absolute path; (iv) resolution: if path `p`
(absolute, not ending in `'/'`) resolves through `Find_r` to sector
`sector`, whose directory table `child` has `e` as the first match of
`e`'s own (slash-prefixed, slash-free-tail, ≤ 9 characters) name, then the
synthesised path `p ++ e.name` resolves to `e.sector`. -/
theorem C10_slash_invariant (d : Disk) (rs sector newSector : Int)
    (name p nm leaf : List Char) (tbl tbl2 child : List DirEntry) (e : DirEntry)
    (dirFlag : Bool) :
    (FileSystem.GetFileName name = some leaf → leaf.head? = some '/') ∧
    (name.head? = some '/' →
      (∀ e2 ∈ tbl, e2.inUse = true → e2.name.head? = some '/') →
      Directory.Add tbl name newSector dirFlag = some tbl2 →
      ∀ e2 ∈ tbl2, e2.inUse = true → e2.name.head? = some '/') ∧
    (p.head? = some '/' → e.name.head? = some '/' → (p ++ e.name).head? = some '/') ∧
    ((∀ pr ∈ d.dirs, ∀ e2 ∈ pr.2, e2.inUse = true → e2.sector ≠ -1) →
      (∀ e2 ∈ tbl, e2.inUse = true → e2.sector ≠ -1) →
      p.head? = some '/' → p.getLast? ≠ some '/' →
      Directory.Find_r d p.length tbl p rs = some sector → sector ≠ -1 →
      readDirFile d sector = some child →
      e.name = '/' :: nm → nm ≠ [] → strchrPos '/' nm = none →
      e.name.length ≤ FileNameMaxLen →
      child.find? (fun e2 => e2.inUse && strncmpEq e2.name e.name FileNameMaxLen) =
        some e →
      Directory.Find_r d (p ++ e.name).length tbl (p ++ e.name) rs = some e.sector) := by
  refine ⟨?_, ?_, ?_, ?_⟩
  · intro h
    unfold FileSystem.GetFileName at h
    rcases hsr : strrchrPos '/' name with _ | j <;> rw [hsr] at h
    · simp at h
    · obtain rfl : name.drop j = leaf := by simpa using h
      rw [head?_drop_eq_get?]
      exact strrchrPos_get '/' name j hsr
  · intro hname hinv hadd e2 he2 hu
    unfold Directory.Add at hadd
    by_cases hfi : Directory.FindIndex tbl name ≠ -1
    · rw [if_pos hfi] at hadd
      exact absurd hadd (by simp)
    · rw [if_neg hfi] at hadd
      rcases hidx : tbl.findIdx? (fun e => !e.inUse) with _ | i <;> rw [hidx] at hadd
      · exact absurd hadd (by simp)
      · obtain rfl :
            tbl.set i
              { inUse := true, directoryFlag := dirFlag, sector := newSector,
                name := name.take FileNameMaxLen } = tbl2 := by simpa using hadd
        rcases List.mem_or_eq_of_mem_set he2 with hmem | heq
        · exact hinv e2 hmem hu
        · rw [heq]
          rcases name with _ | ⟨c, t⟩
          · simp at hname
          obtain rfl : c = '/' := by simpa using hname
          rfl
  · intro h1 _
    rcases p with _ | ⟨c, t⟩
    · simp at h1
    · simpa using h1
  · intro hD htbl hph hpl hres hsne hrd hnm hnmne hspn hlen hfind
    rw [hnm] at hfind ⊢
    have happ := find_r_append d rs hD p.length p ('/' :: nm) tbl (le_refl _) hph hpl
      rfl htbl
    rw [happ, hres]
    simp only [Option.some_bind]
    rw [if_neg hsne, hrd]
    simp only [Option.some_bind]
    rw [show ('/' :: nm).length = nm.length + 1 from rfl]
    have hnme : nm.isEmpty = false := by
      rcases nm with _ | ⟨a, as⟩
      · exact absurd rfl hnmne
      · rfl
    rw [find_r_slash_none d child rs nm.length nm hnme hspn]
    have hguard : ¬ FileNameMaxLen < ('/' :: nm).length := by
      rw [hnm] at hlen
      omega
    rw [if_neg hguard, hfind]

set_option maxRecDepth 100000 in
/-- Concrete run of the C10 invariant on `exDisk2`: the leaf of
`"/d/f"` is `"/f"` and starts with a slash; the synthesised path
`"/d" ++ "/f"` resolves to the file's sector 40. -/
theorem C10_witness :
    (['/', 'f'].head? = some '/') ∧
    (['/', 'd', '/', 'f'].head? = some '/') ∧
    Directory.Find_r exDisk2 4 exRootTbl2 ['/', 'd', '/', 'f'] DirectorySector =
      some 40 := by
  refine ⟨?_, ?_, ?_⟩
  · exact (C10_slash_invariant exDisk2 DirectorySector 30 0 ['/', 'd', '/', 'f']
      ['/', 'd'] ['f'] ['/', 'f'] exRootTbl2 exRootTbl2 exSubTbl2 exFileEnt false).1
      (by decide)
  · exact (C10_slash_invariant exDisk2 DirectorySector 30 0 ['/', 'd', '/', 'f']
      ['/', 'd'] ['f'] ['/', 'f'] exRootTbl2 exRootTbl2 exSubTbl2 exFileEnt
      false).2.2.1 (by decide) (by decide)
  · exact (C10_slash_invariant exDisk2 DirectorySector 30 0 ['/', 'd', '/', 'f']
      ['/', 'd'] ['f'] ['/', 'f'] exRootTbl2 exRootTbl2 exSubTbl2 exFileEnt
      false).2.2.2 (by decide) (by decide) (by decide) (by decide) (by decide)
      (by decide) (by decide) (by decide) (by decide) (by decide) (by decide)
      (by decide)


/-! ### C5: list plumbing for the aging proofs -/

theorem mem_insertSorted (cmp : Thread → Thread → Int) (x : Thread) :
    ∀ (l : List Thread) (z : Thread),
      z ∈ Scheduler.insertSorted cmp x l ↔ z = x ∨ z ∈ l
  | [], z => by simp [Scheduler.insertSorted]
  | y :: ys, z => by
    simp only [Scheduler.insertSorted]
    by_cases hc : cmp x y < 0
    · rw [if_pos hc]
      simp only [List.mem_cons]
    · rw [if_neg hc]
      simp only [List.mem_cons, mem_insertSorted cmp x ys z]
      tauto

theorem filter_insertSorted_of_neg (cmp : Thread → Thread → Int) (x : Thread)
    (p : Thread → Bool) (hx : p x = false) :
    ∀ l : List Thread,
      (Scheduler.insertSorted cmp x l).filter p = l.filter p
  | [] => by simp [Scheduler.insertSorted, hx]
  | y :: ys => by
    simp only [Scheduler.insertSorted]
    by_cases hc : cmp x y < 0
    · rw [if_pos hc]
      simp [hx]
    · rw [if_neg hc]
      simp only [List.filter_cons]
      rw [filter_insertSorted_of_neg cmp x p hx ys]

theorem filter_insertSorted_of_pos (cmp : Thread → Thread → Int) (x : Thread)
    (p : Thread → Bool) (hx : p x = true) :
    ∀ l : List Thread, (∀ u ∈ l, p u = false) →
      (Scheduler.insertSorted cmp x l).filter p = [x]
  | [], _ => by simp [Scheduler.insertSorted, hx]
  | y :: ys, hl => by
    simp only [Scheduler.insertSorted]
    have hy : p y = false := hl y (List.mem_cons_self _ _)
    by_cases hc : cmp x y < 0
    · rw [if_pos hc]
      have hys : (y :: ys).filter p = [] := by
        rw [List.filter_eq_nil_iff]
        intro u hu
        simp [hl u hu]
      simp [List.filter_cons, hx, hys]
    · rw [if_neg hc]
      simp only [List.filter_cons, hy]
      exact filter_insertSorted_of_pos cmp x p hx ys
        (fun u hu => hl u (List.mem_cons_of_mem _ hu))

theorem mem_replaceById (i : Int) (r : Thread) :
    ∀ (l : List Thread) (z : Thread),
      z ∈ Scheduler.replaceById i r l → z = r ∨ z ∈ l
  | [], z => by simp [Scheduler.replaceById]
  | x :: xs, z => by
    simp only [Scheduler.replaceById]
    by_cases hx : x.id = i
    · rw [if_pos hx]
      simp only [List.mem_cons]
      tauto
    · rw [if_neg hx]
      simp only [List.mem_cons]
      intro h
      rcases h with h | h
      · exact Or.inr (Or.inl h)
      · rcases mem_replaceById i r xs z h with h2 | h2
        · exact Or.inl h2
        · exact Or.inr (Or.inr h2)

theorem filter_replaceById_of_neg (i : Int) (r : Thread) (p : Thread → Bool)
    (hr : p r = false) (hdisj : ∀ x : Thread, x.id = i → p x = false) :
    ∀ l : List Thread, (Scheduler.replaceById i r l).filter p = l.filter p
  | [] => by simp [Scheduler.replaceById]
  | x :: xs => by
    simp only [Scheduler.replaceById]
    by_cases hx : x.id = i
    · rw [if_pos hx]
      simp only [List.filter_cons, hr, hdisj x hx, Bool.false_eq_true, if_false]
    · rw [if_neg hx]
      simp only [List.filter_cons]
      rw [filter_replaceById_of_neg i r p hr hdisj xs]

theorem replaceById_decomp (i : Int) (r t : Thread) (hti : t.id = i) :
    ∀ (pre post : List Thread), (∀ u ∈ pre, u.id ≠ i) →
      Scheduler.replaceById i r (pre ++ t :: post) = pre ++ r :: post
  | [], post, _ => by
    simp [Scheduler.replaceById, hti]
  | x :: xs, post, hpre => by
    simp only [List.cons_append, Scheduler.replaceById, List.append_eq]
    rw [if_neg (hpre x (List.mem_cons_self _ _))]
    rw [replaceById_decomp i r t hti xs post
      (fun u hu => hpre u (List.mem_cons_of_mem _ hu))]

theorem eraseP_decomp (q : Thread → Bool) (t : Thread) (hq : q t = true) :
    ∀ (pre post : List Thread), (∀ u ∈ pre, q u = false) →
      (pre ++ t :: post).eraseP q = pre ++ post
  | [], post, _ => by simp [List.eraseP_cons, hq]
  | x :: xs, post, hpre => by
    simp only [List.cons_append, List.eraseP_cons,
      hpre x (List.mem_cons_self _ _), cond_false]
    rw [eraseP_decomp q t hq xs post (fun u hu => hpre u (List.mem_cons_of_mem _ hu))]

theorem filter_eraseP_of_disj (q p : Thread → Bool)
    (hdisj : ∀ x : Thread, q x = true → p x = false) :
    ∀ l : List Thread, (l.eraseP q).filter p = l.filter p
  | [] => by simp
  | x :: xs => by
    simp only [List.eraseP_cons]
    rcases hx : q x with _ | _
    · simp only [cond_false, List.filter_cons]
      rw [filter_eraseP_of_disj q p hdisj xs]
    · simp only [cond_true]
      simp only [List.filter_cons, hdisj x hx, Bool.false_eq_true, if_false]

theorem filter_eq_singleton_decomp (p : Thread → Bool) (t : Thread) :
    ∀ l : List Thread, l.filter p = [t] →
      ∃ pre post, l = pre ++ t :: post ∧ (∀ u ∈ pre, p u = false) ∧
        (∀ u ∈ post, p u = false) ∧ p t = true
  | [], h => by simp at h
  | x :: xs, h => by
    rw [List.filter_cons] at h
    by_cases hx : p x = true
    · rw [if_pos hx] at h
      obtain ⟨rfl, h2⟩ : x = t ∧ xs.filter p = [] := by
        constructor
        · exact (List.cons.inj h).1
        · exact (List.cons.inj h).2
      refine ⟨[], xs, by simp, by simp, ?_, hx⟩
      intro u hu
      rcases hpu : p u with _ | _
      · rfl
      · exact absurd (List.mem_filter.mpr ⟨hu, hpu⟩) (by simp [h2])
    · rw [if_neg hx] at h
      obtain ⟨pre, post, rfl, hpre, hpost, hpt⟩ := filter_eq_singleton_decomp p t xs h
      exact ⟨x :: pre, post, rfl,
        fun u hu => by
          rcases List.mem_cons.mp hu with rfl | hu2
          · simpa using hx
          · exact hpre u hu2,
        hpost, hpt⟩


theorem getQueue_setQueue_self (st : SchedState) (i : Nat) (l : List Thread)
    (hi : i < 3) : Scheduler.getQueue (Scheduler.setQueue st i l) i = l := by
  rcases i with _ | _ | _ | m
  · rfl
  · rfl
  · rfl
  · omega

theorem getQueue_setQueue_ne (st : SchedState) (i j : Nat) (l : List Thread)
    (hi : i < 3) (hne : j ≠ i) :
    Scheduler.getQueue (Scheduler.setQueue st i l) j = Scheduler.getQueue st j := by
  rcases i with _ | _ | _ | m
  · rcases j with _ | _ | _ | m2
    · exact absurd rfl hne
    · rfl
    · rfl
    · rfl
  · rcases j with _ | _ | _ | m2
    · rfl
    · exact absurd rfl hne
    · rfl
    · rfl
  · rcases j with _ | _ | _ | m2
    · rfl
    · rfl
    · exact absurd rfl hne
    · rfl
  · omega

theorem setQueue_now (st : SchedState) (i : Nat) (l : List Thread) :
    (Scheduler.setQueue st i l).now = st.now ∧
    (Scheduler.setQueue st i l).current = st.current := by
  rcases i with _ | _ | _ | m
  · exact ⟨rfl, rfl⟩
  · exact ⟨rfl, rfl⟩
  · exact ⟨rfl, rfl⟩
  · exact ⟨rfl, rfl⟩

/-- The record `ReadyToRun` links into the tier queue. -/
def rtrRecord (st : SchedState) (u : Thread) : Thread :=
  { u with lastCPUTick := st.now, status := ThStatus.READY }

/-- Full characterisation of a successful `Scheduler::ReadyToRun`: the
assertion bound holds, the state keeps its clock and running thread, and
exactly the tier queue `priority / LEVEL_GAP` changes, receiving the
restamped `READY` record (appended for tier 0, sorted-inserted for tiers
1 and 2). -/
theorem ReadyToRun_spec (st : SchedState) (u : Thread) (st' : SchedState)
    (h : Scheduler.ReadyToRun st u = some st') :
    u.priority < 150 ∧ u.priority / LEVEL_GAP < 3 ∧
    st'.now = st.now ∧ st'.current = st.current ∧
    ∀ j, j < 3 →
      Scheduler.getQueue st' j =
        if j = u.priority / LEVEL_GAP then
          (if j = 0 then Scheduler.getQueue st 0 ++ [rtrRecord st u]
           else if j = 1 then
             Scheduler.insertSorted Scheduler.ComparePriority (rtrRecord st u)
               (Scheduler.getQueue st 1)
           else
             Scheduler.insertSorted Scheduler.CompareSJF (rtrRecord st u)
               (Scheduler.getQueue st 2))
        else Scheduler.getQueue st j := by
  unfold Scheduler.ReadyToRun at h
  by_cases h150 : u.priority < 150
  · rw [if_pos h150] at h
    dsimp only at h
    refine ⟨h150, by simp only [LEVEL_GAP]; omega, ?_⟩
    rcases htl : u.priority / LEVEL_GAP with _ | _ | _ | m <;> rw [htl] at h
    · dsimp only at h
      by_cases hpre : st.current.id ≠ u.id ∧
          Scheduler.isPreempted st.current
            { u with lastCPUTick := st.now, status := ThStatus.READY } = true
      · rw [if_pos hpre] at h
        obtain rfl := Option.some.inj h
        refine ⟨rfl, rfl, ?_⟩
        intro j hj
        rcases j with _ | _ | _ | m2 <;> simp [Scheduler.getQueue, rtrRecord]
      · rw [if_neg hpre] at h
        obtain rfl := Option.some.inj h
        refine ⟨rfl, rfl, ?_⟩
        intro j hj
        rcases j with _ | _ | _ | m2 <;> simp [Scheduler.getQueue, rtrRecord]
    · dsimp only at h
      by_cases hpre : st.current.id ≠ u.id ∧
          Scheduler.isPreempted st.current
            { u with lastCPUTick := st.now, status := ThStatus.READY } = true
      · rw [if_pos hpre] at h
        obtain rfl := Option.some.inj h
        refine ⟨rfl, rfl, ?_⟩
        intro j hj
        rcases j with _ | _ | _ | m2 <;> simp [Scheduler.getQueue, rtrRecord]
      · rw [if_neg hpre] at h
        obtain rfl := Option.some.inj h
        refine ⟨rfl, rfl, ?_⟩
        intro j hj
        rcases j with _ | _ | _ | m2 <;> simp [Scheduler.getQueue, rtrRecord]
    · dsimp only at h
      by_cases hpre : st.current.id ≠ u.id ∧
          Scheduler.isPreempted st.current
            { u with lastCPUTick := st.now, status := ThStatus.READY } = true
      · rw [if_pos hpre] at h
        obtain rfl := Option.some.inj h
        refine ⟨rfl, rfl, ?_⟩
        intro j hj
        rcases j with _ | _ | _ | m2 <;> simp [Scheduler.getQueue, rtrRecord]
      · rw [if_neg hpre] at h
        obtain rfl := Option.some.inj h
        refine ⟨rfl, rfl, ?_⟩
        intro j hj
        rcases j with _ | _ | _ | m2 <;> simp [Scheduler.getQueue, rtrRecord]
    · dsimp only at h
      exact absurd h (by simp)
  · rw [if_neg h150] at h
    exact absurd h (by simp)

theorem ReadyToRun_total (st : SchedState) (u : Thread) (h150 : u.priority < 150) :
    ∃ st', Scheduler.ReadyToRun st u = some st' := by
  unfold Scheduler.ReadyToRun
  rw [if_pos h150]
  dsimp only
  rcases htl : u.priority / LEVEL_GAP with _ | _ | _ | m
  · dsimp only
    by_cases hpre : st.current.id ≠ u.id ∧
        Scheduler.isPreempted st.current
          { u with lastCPUTick := st.now, status := ThStatus.READY } = true
    · rw [if_pos hpre]
      exact ⟨_, rfl⟩
    · rw [if_neg hpre]
      exact ⟨_, rfl⟩
  · dsimp only
    by_cases hpre : st.current.id ≠ u.id ∧
        Scheduler.isPreempted st.current
          { u with lastCPUTick := st.now, status := ThStatus.READY } = true
    · rw [if_pos hpre]
      exact ⟨_, rfl⟩
    · rw [if_neg hpre]
      exact ⟨_, rfl⟩
  · dsimp only
    by_cases hpre : st.current.id ≠ u.id ∧
        Scheduler.isPreempted st.current
          { u with lastCPUTick := st.now, status := ThStatus.READY } = true
    · rw [if_pos hpre]
      exact ⟨_, rfl⟩
    · rw [if_neg hpre]
      exact ⟨_, rfl⟩
  · exfalso
    simp only [LEVEL_GAP] at htl
    omega


theorem ReadyToRun_mem_queues (st : SchedState) (u : Thread) (st' : SchedState)
    (h : Scheduler.ReadyToRun st u = some st') :
    ∀ j, j < 3 → ∀ z ∈ Scheduler.getQueue st' j,
      z = rtrRecord st u ∨ z ∈ Scheduler.getQueue st j := by
  obtain ⟨h150, htier, hnow, hcur, hq⟩ := ReadyToRun_spec st u st' h
  intro j hj z hz
  rw [hq j hj] at hz
  by_cases hjt : j = u.priority / LEVEL_GAP
  · rw [if_pos hjt] at hz
    by_cases hj0 : j = 0
    · rw [if_pos hj0] at hz
      rcases List.mem_append.mp hz with h1 | h1
      · right
        rw [hj0]
        exact h1
      · left
        simpa using h1
    · rw [if_neg hj0] at hz
      by_cases hj1 : j = 1
      · rw [if_pos hj1] at hz
        rcases (mem_insertSorted _ _ _ _).mp hz with h1 | h1
        · exact Or.inl h1
        · right
          rw [hj1]
          exact h1
      · rw [if_neg hj1] at hz
        rcases (mem_insertSorted _ _ _ _).mp hz with h1 | h1
        · exact Or.inl h1
        · right
          have hj2 : j = 2 := by omega
          rw [hj2]
          exact h1
  · rw [if_neg hjt] at hz
    exact Or.inr hz

theorem ReadyToRun_filter_of_neg (st : SchedState) (u : Thread) (st' : SchedState)
    (p : Thread → Bool) (h : Scheduler.ReadyToRun st u = some st')
    (hp : p (rtrRecord st u) = false) :
    ∀ j, j < 3 →
      (Scheduler.getQueue st' j).filter p = (Scheduler.getQueue st j).filter p := by
  obtain ⟨h150, htier, hnow, hcur, hq⟩ := ReadyToRun_spec st u st' h
  intro j hj
  rw [hq j hj]
  by_cases hjt : j = u.priority / LEVEL_GAP
  · rw [if_pos hjt]
    by_cases hj0 : j = 0
    · rw [if_pos hj0, hj0]
      rw [List.filter_append]
      simp [hp]
    · rw [if_neg hj0]
      by_cases hj1 : j = 1
      · rw [if_pos hj1, hj1]
        rw [filter_insertSorted_of_neg _ _ _ hp]
      · rw [if_neg hj1]
        have hj2 : j = 2 := by omega
        rw [hj2]
        rw [filter_insertSorted_of_neg _ _ _ hp]
  · rw [if_neg hjt]

theorem ReadyToRun_filter_insert (st : SchedState) (u : Thread) (st' : SchedState)
    (p : Thread → Bool) (h : Scheduler.ReadyToRun st u = some st')
    (hp : p (rtrRecord st u) = true)
    (hnone : ∀ z ∈ Scheduler.getQueue st (u.priority / LEVEL_GAP), p z = false) :
    (Scheduler.getQueue st' (u.priority / LEVEL_GAP)).filter p = [rtrRecord st u] := by
  obtain ⟨h150, htier, hnow, hcur, hq⟩ := ReadyToRun_spec st u st' h
  rw [hq (u.priority / LEVEL_GAP) htier]
  rw [if_pos rfl]
  by_cases hj0 : u.priority / LEVEL_GAP = 0
  · rw [if_pos hj0]
    rw [List.filter_append]
    have : (Scheduler.getQueue st 0).filter p = [] := by
      rw [List.filter_eq_nil_iff]
      intro z hz
      rw [hj0] at hnone
      simp [hnone z hz]
    rw [this]
    simp [hp]
  · rw [if_neg hj0]
    by_cases hj1 : u.priority / LEVEL_GAP = 1
    · rw [if_pos hj1]
      rw [filter_insertSorted_of_pos _ _ _ hp]
      intro z hz
      rw [hj1] at hnone
      exact hnone z hz
    · rw [if_neg hj1]
      have hj2 : u.priority / LEVEL_GAP = 2 := by
        simp only [LEVEL_GAP] at htier hj0 hj1 ⊢
        omega
      rw [filter_insertSorted_of_pos _ _ _ hp]
      intro z hz
      rw [hj2] at hnone
      exact hnone z hz


theorem filter_decomp_singleton (p : Thread → Bool) (t : Thread) :
    ∀ (pre post : List Thread), (∀ u ∈ pre, p u = false) → (∀ u ∈ post, p u = false) →
      p t = true → (pre ++ t :: post).filter p = [t]
  | [], post, _, hpost, hp => by
    simp only [List.nil_append, List.filter_cons, hp, if_true]
    have : post.filter p = [] := by
      rw [List.filter_eq_nil_iff]
      intro u hu
      simp [hpost u hu]
    rw [this]
  | x :: xs, post, hpre, hpost, hp => by
    simp only [List.cons_append, List.filter_cons, hpre x (List.mem_cons_self _ _),
      Bool.false_eq_true, if_false]
    exact filter_decomp_singleton p t xs post
      (fun u hu => hpre u (List.mem_cons_of_mem _ hu)) hpost hp

theorem soleEntry_ReadyToRun (st : SchedState) (u : Thread) (st' : SchedState)
    (r : Thread) (k : Nat) (hk : k < 3) (hne : u.id ≠ r.id)
    (h : Scheduler.ReadyToRun st u = some st') (hS : soleEntry st r k) :
    soleEntry st' r k := by
  obtain ⟨hAll, hFil⟩ := hS
  constructor
  · intro j z hz hid
    rcases ReadyToRun_mem_queues st u st' h j.val j.isLt z hz with rfl | hz2
    · exact absurd hid (by simp only [rtrRecord]; exact hne)
    · exact hAll j z hz2 hid
  · rw [ReadyToRun_filter_of_neg st u st' _ h
      (by simp only [rtrRecord, decide_eq_false_iff_not]; exact hne) k hk]
    exact hFil

theorem soleEntry_remove (st : SchedState) (qi : Nat) (hqi : qi < 3) (i : Int)
    (r : Thread) (k : Nat) (_hk : k < 3) (hne : i ≠ r.id) (hS : soleEntry st r k) :
    soleEntry
      (Scheduler.setQueue st qi (Scheduler.removeById i (Scheduler.getQueue st qi)))
      r k := by
  obtain ⟨hAll, hFil⟩ := hS
  constructor
  · intro j z hz hid
    by_cases hjq : j.val = qi
    · rw [hjq, getQueue_setQueue_self st qi _ hqi] at hz
      have hz2 : z ∈ Scheduler.getQueue st qi := List.mem_of_mem_eraseP hz
      have h3 := hAll j z (by rw [hjq]; exact hz2) hid
      exact h3
    · rw [getQueue_setQueue_ne st qi j.val _ hqi hjq] at hz
      exact hAll j z hz hid
  · by_cases hkq : k = qi
    · rw [hkq, getQueue_setQueue_self st qi _ hqi]
      unfold Scheduler.removeById
      rw [filter_eraseP_of_disj _ _ ?_]
      · rw [← hkq]
        exact hFil
      · intro x hx
        simp only [decide_eq_true_eq] at hx
        simp only [decide_eq_false_iff_not, hx]
        intro hcon
        exact hne hcon
    · rw [getQueue_setQueue_ne st qi k _ hqi hkq]
      exact hFil

theorem soleEntry_replace (st : SchedState) (qi : Nat) (hqi : qi < 3) (i : Int)
    (r0 r : Thread) (k : Nat) (_hk : k < 3) (hne : i ≠ r.id) (hr0 : r0.id ≠ r.id)
    (hS : soleEntry st r k) :
    soleEntry
      (Scheduler.setQueue st qi
        (Scheduler.replaceById i r0 (Scheduler.getQueue st qi))) r k := by
  obtain ⟨hAll, hFil⟩ := hS
  constructor
  · intro j z hz hid
    by_cases hjq : j.val = qi
    · rw [hjq, getQueue_setQueue_self st qi _ hqi] at hz
      rcases mem_replaceById i r0 _ z hz with rfl | hz2
      · exact absurd hid hr0
      · exact hAll j z (by rw [hjq]; exact hz2) hid
    · rw [getQueue_setQueue_ne st qi j.val _ hqi hjq] at hz
      exact hAll j z hz hid
  · by_cases hkq : k = qi
    · rw [hkq, getQueue_setQueue_self st qi _ hqi]
      rw [filter_replaceById_of_neg i r0 _
        (by simp only [decide_eq_false_iff_not]; exact hr0)
        (fun x hx => by
          simp only [decide_eq_false_iff_not, hx]
          intro hcon
          exact hne hcon)]
      rw [← hkq]
      exact hFil
    · rw [getQueue_setQueue_ne st qi k _ hqi hkq]
      exact hFil

theorem agingStep_sole (now qi : Nat) (hqi : qi < 3) (u : Thread) (st st1 : SchedState)
    (r : Thread) (k : Nat) (hk : k < 3)
    (hu : u.id = r.id → (u = r ∧ now - r.lastCPUTick < AGING_TICKS))
    (hS : soleEntry st r k)
    (h : Scheduler.agingStep now qi u st = some st1) :
    soleEntry st1 r k ∧ st1.now = st.now ∧ st1.current = st.current := by
  unfold Scheduler.agingStep at h
  by_cases hstale : AGING_TICKS ≤ now - u.lastCPUTick
  · rw [if_pos hstale] at h
    dsimp only at h
    have hne : u.id ≠ r.id := by
      intro hid
      obtain ⟨rfl, hfr⟩ := hu hid
      omega
    by_cases hlg : LEVEL_GAP ≤ (if u.priority + 10 < 150 then u.priority + 10 else 149)
    · rw [if_pos hlg] at h
      have hS1 := soleEntry_remove st qi hqi u.id r k hk hne hS
      refine ⟨soleEntry_ReadyToRun _
        { u with priority := if u.priority + 10 < 150 then u.priority + 10 else 149 }
        _ r k hk hne h hS1, ?_, ?_⟩
      · obtain ⟨_, _, hnow, _, _⟩ := ReadyToRun_spec _ _ _ h
        rw [hnow, (setQueue_now st qi _).1]
      · obtain ⟨_, _, _, hcur, _⟩ := ReadyToRun_spec _ _ _ h
        rw [hcur, (setQueue_now st qi _).2]
    · rw [if_neg hlg] at h
      obtain rfl := Option.some.inj h
      refine ⟨soleEntry_replace st qi hqi u.id _ r k hk hne hne hS,
        (setQueue_now st qi _).1, (setQueue_now st qi _).2⟩
  · rw [if_neg hstale] at h
    obtain rfl := Option.some.inj h
    exact ⟨hS, rfl, rfl⟩

theorem agingStep_total (now qi : Nat) (u : Thread) (st : SchedState) :
    ∃ st1, Scheduler.agingStep now qi u st = some st1 := by
  unfold Scheduler.agingStep
  by_cases hstale : AGING_TICKS ≤ now - u.lastCPUTick
  · rw [if_pos hstale]
    dsimp only
    by_cases hlg : LEVEL_GAP ≤ (if u.priority + 10 < 150 then u.priority + 10 else 149)
    · rw [if_pos hlg]
      apply ReadyToRun_total
      show (if u.priority + 10 < 150 then u.priority + 10 else 149) < 150
      by_cases hp : u.priority + 10 < 150
      · rw [if_pos hp]
        omega
      · rw [if_neg hp]
        omega
    · rw [if_neg hlg]
      exact ⟨_, rfl⟩
  · rw [if_neg hstale]
    exact ⟨_, rfl⟩


theorem agingPhase_sole (now qi : Nat) (hqi : qi < 3) :
    ∀ (snap : List Thread) (st st' : SchedState) (r : Thread) (k : Nat), k < 3 →
      (∀ u ∈ snap, u.id = r.id → (u = r ∧ now - r.lastCPUTick < AGING_TICKS)) →
      soleEntry st r k →
      Scheduler.agingPhase now qi snap st = some st' →
      soleEntry st' r k ∧ st'.now = st.now ∧ st'.current = st.current
  | [], st, st', r, k, _, _, hS, h => by
    obtain rfl := Option.some.inj h
    exact ⟨hS, rfl, rfl⟩
  | u :: us, st, st', r, k, hk, hsnap, hS, h => by
    simp only [Scheduler.agingPhase] at h
    rcases hstep : Scheduler.agingStep now qi u st with _ | stmid <;> rw [hstep] at h
    · simp at h
    · obtain ⟨hS1, hn1, hc1⟩ := agingStep_sole now qi hqi u st stmid r k hk
        (fun hid => hsnap u (List.mem_cons_self _ _) hid) hS hstep
      obtain ⟨hS2, hn2, hc2⟩ := agingPhase_sole now qi hqi us stmid st' r k hk
        (fun z hz hid => hsnap z (List.mem_cons_of_mem _ hz) hid) hS1 h
      exact ⟨hS2, by rw [hn2, hn1], by rw [hc2, hc1]⟩

theorem agingPhase_total (now qi : Nat) :
    ∀ (snap : List Thread) (st : SchedState),
      ∃ st', Scheduler.agingPhase now qi snap st = some st'
  | [], st => ⟨st, rfl⟩
  | u :: us, st => by
    obtain ⟨st1, h1⟩ := agingStep_total now qi u st
    obtain ⟨st', h2⟩ := agingPhase_total now qi us st1
    refine ⟨st', ?_⟩
    simp only [Scheduler.agingPhase]
    rw [h1]
    exact h2

theorem agingPhase_append (now qi : Nat) :
    ∀ (l1 l2 : List Thread) (st : SchedState),
      Scheduler.agingPhase now qi (l1 ++ l2) st =
        match Scheduler.agingPhase now qi l1 st with
        | none => none
        | some s1 => Scheduler.agingPhase now qi l2 s1
  | [], l2, st => rfl
  | u :: us, l2, st => by
    simp only [List.cons_append, Scheduler.agingPhase]
    rcases hstep : Scheduler.agingStep now qi u st with _ | s1
    · rfl
    · exact agingPhase_append now qi us l2 s1


theorem agingStep_stale_sole (now qi : Nat) (hqi : qi < 3) (t : Thread)
    (st st1 : SchedState) (hnow : st.now = now)
    (hstale : AGING_TICKS ≤ now - t.lastCPUTick)
    (hS : soleEntry st t qi)
    (h : Scheduler.agingStep now qi t st = some st1) :
    ((LEVEL_GAP ≤ (if t.priority + 10 < 150 then t.priority + 10 else 149) →
       soleEntry st1
         { t with priority := (if t.priority + 10 < 150 then t.priority + 10 else 149),
                  lastCPUTick := now, status := ThStatus.READY }
         ((if t.priority + 10 < 150 then t.priority + 10 else 149) / LEVEL_GAP)) ∧
     ((if t.priority + 10 < 150 then t.priority + 10 else 149) < LEVEL_GAP →
       soleEntry st1
         { t with priority := (if t.priority + 10 < 150 then t.priority + 10 else 149),
                  lastCPUTick := now } qi)) ∧
    st1.now = st.now ∧ st1.current = st.current := by
  unfold Scheduler.agingStep at h
  rw [if_pos hstale] at h
  dsimp only at h
  obtain ⟨hAll, hFil⟩ := hS
  obtain ⟨pre, post, hdec, hpre, hpost, hpt⟩ := filter_eq_singleton_decomp _ t _ hFil
  by_cases hlg : LEVEL_GAP ≤ (if t.priority + 10 < 150 then t.priority + 10 else 149)
  · rw [if_pos hlg] at h
    have hrm : Scheduler.removeById t.id (Scheduler.getQueue st qi) = pre ++ post := by
      rw [hdec]
      unfold Scheduler.removeById
      exact eraseP_decomp _ t hpt pre post hpre
    obtain ⟨h150, htier, hnowR, hcur, hq⟩ := ReadyToRun_spec _ _ _ h
    have hnow1 :
        (Scheduler.setQueue st qi
          (Scheduler.removeById t.id (Scheduler.getQueue st qi))).now = now := by
      rw [(setQueue_now st qi _).1, hnow]
    have hrec :
        rtrRecord
          (Scheduler.setQueue st qi
            (Scheduler.removeById t.id (Scheduler.getQueue st qi)))
          { t with priority := (if t.priority + 10 < 150 then t.priority + 10 else 149) } =
        { t with priority := (if t.priority + 10 < 150 then t.priority + 10 else 149),
                 lastCPUTick := now, status := ThStatus.READY } := by
      unfold rtrRecord
      rw [hnow1]
    have hnone : ∀ z ∈ Scheduler.getQueue
        (Scheduler.setQueue st qi (Scheduler.removeById t.id (Scheduler.getQueue st qi)))
        (({ t with priority :=
            (if t.priority + 10 < 150 then t.priority + 10 else 149) } : Thread).priority /
          LEVEL_GAP),
        (fun z : Thread => decide (z.id = t.id)) z = false := by
      intro z hz
      by_cases hjq :
          (({ t with priority :=
              (if t.priority + 10 < 150 then t.priority + 10 else 149) } : Thread).priority /
            LEVEL_GAP) = qi
      · rw [hjq, getQueue_setQueue_self st qi _ hqi, hrm] at hz
        rcases List.mem_append.mp hz with h1 | h1
        · exact hpre z h1
        · exact hpost z h1
      · rw [getQueue_setQueue_ne st qi _ _ hqi hjq] at hz
        by_cases hzid : z.id = t.id
        · exfalso
          have h2 := hAll ⟨_, htier⟩ z hz hzid
          exact hjq h2.1
        · simp [hzid]
    have hfilter := ReadyToRun_filter_insert _ _ _
      (fun z : Thread => decide (z.id = t.id)) h (by simp [rtrRecord]) hnone
    rw [hrec] at hfilter
    refine ⟨⟨fun _ => ⟨?_, ?_⟩, fun hcon => absurd hlg (by omega)⟩, ?_, ?_⟩
    · -- membership component
      intro j z hz hid
      by_cases hjt : j.val =
          ({ t with priority :=
            (if t.priority + 10 < 150 then t.priority + 10 else 149) } : Thread).priority /
            LEVEL_GAP
      · refine ⟨hjt, ?_⟩
        have hzf : z ∈ (Scheduler.getQueue st1
            (({ t with priority :=
              (if t.priority + 10 < 150 then t.priority + 10 else 149) } : Thread).priority /
              LEVEL_GAP)).filter (fun z : Thread => decide (z.id = t.id)) := by
          refine List.mem_filter.mpr ⟨?_, by simpa using hid⟩
          rw [← hjt]
          exact hz
        rw [hfilter] at hzf
        simpa using hzf
      · exfalso
        rw [hq j.val j.isLt, if_neg hjt] at hz
        by_cases hjq : j.val = qi
        · rw [hjq, getQueue_setQueue_self st qi _ hqi, hrm] at hz
          rcases List.mem_append.mp hz with h1 | h1
          · have := hpre z h1
            simp only [decide_eq_false_iff_not] at this
            exact this (by simpa using hid)
          · have := hpost z h1
            simp only [decide_eq_false_iff_not] at this
            exact this (by simpa using hid)
        · rw [getQueue_setQueue_ne st qi _ _ hqi hjq] at hz
          have h2 := hAll j z hz (by simpa using hid)
          exact hjq h2.1
    · -- filter component
      exact hfilter
    · rw [hnowR, (setQueue_now st qi _).1]
    · rw [hcur, (setQueue_now st qi _).2]
  · rw [if_neg hlg] at h
    obtain rfl := Option.some.inj h
    have hpre2 : ∀ u ∈ pre, u.id ≠ t.id := by
      intro u hu
      have := hpre u hu
      simpa using this
    have hrep : Scheduler.replaceById t.id
        { t with priority := (if t.priority + 10 < 150 then t.priority + 10 else 149),
                 lastCPUTick := now } (Scheduler.getQueue st qi) =
        pre ++
          { t with priority := (if t.priority + 10 < 150 then t.priority + 10 else 149),
                   lastCPUTick := now } :: post := by
      rw [hdec]
      exact replaceById_decomp t.id _ t rfl pre post hpre2
    refine ⟨⟨fun hcon => absurd hcon (by omega), fun _ => ⟨?_, ?_⟩⟩, ?_, ?_⟩
    · intro j z hz hid
      by_cases hjq : j.val = qi
      · refine ⟨hjq, ?_⟩
        rw [hjq, getQueue_setQueue_self st qi _ hqi, hrep] at hz
        rcases List.mem_append.mp hz with h1 | h1
        · exact absurd (by simpa using hid) (hpre2 z h1)
        · rcases List.mem_cons.mp h1 with h2 | h2
          · exact h2
          · have := hpost z h2
            simp only [decide_eq_false_iff_not] at this
            exact absurd (by simpa using hid) this
      · exfalso
        rw [getQueue_setQueue_ne st qi _ _ hqi hjq] at hz
        have h2 := hAll j z hz (by simpa using hid)
        exact hjq h2.1
    · rw [getQueue_setQueue_self st qi _ hqi, hrep]
      exact filter_decomp_singleton _ _ pre post hpre hpost (by simp)
    · exact (setQueue_now st qi _).1
    · exact (setQueue_now st qi _).2


theorem agedPriority_div_lt (p : Nat) :
    (if p + 10 < 150 then p + 10 else 149) / LEVEL_GAP < 3 := by
  simp only [LEVEL_GAP]
  by_cases hp : p + 10 < 150
  · rw [if_pos hp]
    omega
  · rw [if_neg hp]
    omega

theorem agedPriority_le (p : Nat) :
    (if p + 10 < 150 then p + 10 else 149) ≤ 149 := by
  by_cases hp : p + 10 < 150
  · rw [if_pos hp]
    omega
  · rw [if_neg hp]

theorem agingPhase_own (now qi : Nat) (hqi : qi < 3) (t : Thread) (s s' : SchedState)
    (hnow : s.now = now)
    (hstale : AGING_TICKS ≤ now - t.lastCPUTick)
    (hS : soleEntry s t qi)
    (h : Scheduler.agingPhase now qi (Scheduler.getQueue s qi) s = some s') :
    ((LEVEL_GAP ≤ (if t.priority + 10 < 150 then t.priority + 10 else 149) →
       soleEntry s'
         { t with priority := (if t.priority + 10 < 150 then t.priority + 10 else 149),
                  lastCPUTick := now, status := ThStatus.READY }
         ((if t.priority + 10 < 150 then t.priority + 10 else 149) / LEVEL_GAP)) ∧
     ((if t.priority + 10 < 150 then t.priority + 10 else 149) < LEVEL_GAP →
       soleEntry s'
         { t with priority := (if t.priority + 10 < 150 then t.priority + 10 else 149),
                  lastCPUTick := now } qi)) ∧
    s'.now = s.now ∧ s'.current = s.current := by
  obtain ⟨pre, post, hdec, hpre, hpost, hpt⟩ := filter_eq_singleton_decomp _ t _ hS.2
  rw [hdec] at h
  rw [agingPhase_append] at h
  rcases h1 : Scheduler.agingPhase now qi pre s with _ | smid <;> rw [h1] at h
  · simp at h
  dsimp only at h
  obtain ⟨hSmid, hnmid, hcmid⟩ := agingPhase_sole now qi hqi pre s smid t qi hqi
    (fun u hu hid => absurd hid (by simpa using hpre u hu)) hS h1
  simp only [Scheduler.agingPhase] at h
  rcases h2 : Scheduler.agingStep now qi t smid with _ | s2 <;> rw [h2] at h
  · simp at h
  obtain ⟨⟨hmove, hstay⟩, hn2, hc2⟩ := agingStep_stale_sole now qi hqi t smid s2
    (by rw [hnmid, hnow]) hstale hSmid h2
  by_cases hlg : LEVEL_GAP ≤ (if t.priority + 10 < 150 then t.priority + 10 else 149)
  · obtain ⟨hS3, hn3, hc3⟩ := agingPhase_sole now qi hqi post s2 s' _ _
      (agedPriority_div_lt t.priority)
      (fun u hu hid => absurd hid (by simpa using hpost u hu))
      (hmove hlg) h
    refine ⟨⟨fun _ => hS3, fun hcon => absurd hlg (by omega)⟩, ?_, ?_⟩
    · rw [hn3, hn2, hnmid]
    · rw [hc3, hc2, hcmid]
  · obtain ⟨hS3, hn3, hc3⟩ := agingPhase_sole now qi hqi post s2 s' _ _ hqi
      (fun u hu hid => absurd hid (by simpa using hpost u hu))
      (hstay (by omega)) h
    refine ⟨⟨fun hcon => absurd hcon hlg, fun _ => hS3⟩, ?_, ?_⟩
    · rw [hn3, hn2, hnmid]
    · rw [hc3, hc2, hcmid]

theorem Aging_sole_fresh (st st' : SchedState) (r : Thread) (k : Nat) (hk : k < 3)
    (hfresh : st.now - r.lastCPUTick < AGING_TICKS)
    (hS : soleEntry st r k)
    (h : Scheduler.Aging st = some st') :
    soleEntry st' r k := by
  unfold Scheduler.Aging at h
  rcases h0 : Scheduler.agingPhase st.now 0 st.readyList st with _ | s1 <;> rw [h0] at h
  · simp at h
  dsimp only at h
  rcases h1 : Scheduler.agingPhase st.now 1 s1.priorityList s1 with _ | s2 <;> rw [h1] at h
  · simp at h
  dsimp only at h
  obtain ⟨hS1, hn1, hc1⟩ := agingPhase_sole st.now 0 (by omega) st.readyList st s1 r k hk
    (fun u hu hid => ⟨(hS.1 ⟨0, by omega⟩ u hu hid).2, hfresh⟩) hS h0
  obtain ⟨hS2, hn2, hc2⟩ := agingPhase_sole st.now 1 (by omega) s1.priorityList s1 s2 r k hk
    (fun u hu hid => ⟨(hS1.1 ⟨1, by omega⟩ u hu hid).2, hfresh⟩) hS1 h1
  exact (agingPhase_sole st.now 2 (by omega) s2.sjfList s2 st' r k hk
    (fun u hu hid => ⟨(hS2.1 ⟨2, by omega⟩ u hu hid).2, hfresh⟩) hS2 h).1

theorem Aging_sole_stale (st st' : SchedState) (t : Thread) (qi : Nat) (hqi : qi < 3)
    (hstale : AGING_TICKS ≤ st.now - t.lastCPUTick)
    (hS : soleEntry st t qi)
    (h : Scheduler.Aging st = some st') :
    (LEVEL_GAP ≤ (if t.priority + 10 < 150 then t.priority + 10 else 149) →
      soleEntry st'
        { t with priority := (if t.priority + 10 < 150 then t.priority + 10 else 149),
                 lastCPUTick := st.now, status := ThStatus.READY }
        ((if t.priority + 10 < 150 then t.priority + 10 else 149) / LEVEL_GAP)) ∧
    ((if t.priority + 10 < 150 then t.priority + 10 else 149) < LEVEL_GAP →
      soleEntry st'
        { t with priority := (if t.priority + 10 < 150 then t.priority + 10 else 149),
                 lastCPUTick := st.now } qi) := by
  unfold Scheduler.Aging at h
  rcases h0 : Scheduler.agingPhase st.now 0 st.readyList st with _ | s1 <;> rw [h0] at h
  · simp at h
  dsimp only at h
  rcases h1 : Scheduler.agingPhase st.now 1 s1.priorityList s1 with _ | s2 <;> rw [h1] at h
  · simp at h
  dsimp only at h
  interval_cases qi
  · -- own phase is phase 0
    obtain ⟨⟨hmove, hstay⟩, hn1, hc1⟩ := agingPhase_own st.now 0 (by omega) t st s1 rfl
      hstale hS h0
    by_cases hlg : LEVEL_GAP ≤ (if t.priority + 10 < 150 then t.priority + 10 else 149)
    · have hR := hmove hlg
      obtain ⟨hR2, hn2, hc2⟩ := agingPhase_sole st.now 1 (by omega) s1.priorityList s1 s2 _ _
        (agedPriority_div_lt t.priority)
        (fun u hu hid => ⟨(hR.1 ⟨1, by omega⟩ u hu hid).2, by simp [AGING_TICKS]⟩) hR h1
      have hR3 := (agingPhase_sole st.now 2 (by omega) s2.sjfList s2 st' _ _
        (agedPriority_div_lt t.priority)
        (fun u hu hid => ⟨(hR2.1 ⟨2, by omega⟩ u hu hid).2, by simp [AGING_TICKS]⟩) hR2 h).1
      exact ⟨fun _ => hR3, fun hcon => absurd hlg (by omega)⟩
    · have hR := hstay (by omega)
      obtain ⟨hR2, hn2, hc2⟩ := agingPhase_sole st.now 1 (by omega) s1.priorityList s1 s2 _ 0
        (by omega)
        (fun u hu hid => ⟨(hR.1 ⟨1, by omega⟩ u hu hid).2, by simp [AGING_TICKS]⟩) hR h1
      have hR3 := (agingPhase_sole st.now 2 (by omega) s2.sjfList s2 st' _ 0
        (by omega)
        (fun u hu hid => ⟨(hR2.1 ⟨2, by omega⟩ u hu hid).2, by simp [AGING_TICKS]⟩) hR2 h).1
      exact ⟨fun hcon => absurd hcon hlg, fun _ => hR3⟩
  · -- own phase is phase 1
    obtain ⟨hS1, hn1, hc1⟩ := agingPhase_sole st.now 0 (by omega) st.readyList st s1 t 1
      (by omega)
      (fun u hu hid => absurd ((hS.1 ⟨0, by omega⟩ u hu hid).1) (by simp))
      hS h0
    obtain ⟨⟨hmove, hstay⟩, hn2, hc2⟩ := agingPhase_own st.now 1 (by omega) t s1 s2 hn1
      hstale hS1 h1
    by_cases hlg : LEVEL_GAP ≤ (if t.priority + 10 < 150 then t.priority + 10 else 149)
    · have hR := hmove hlg
      have hR3 := (agingPhase_sole st.now 2 (by omega) s2.sjfList s2 st' _ _
        (agedPriority_div_lt t.priority)
        (fun u hu hid => ⟨(hR.1 ⟨2, by omega⟩ u hu hid).2, by simp [AGING_TICKS]⟩) hR h).1
      exact ⟨fun _ => hR3, fun hcon => absurd hlg (by omega)⟩
    · have hR := hstay (by omega)
      have hR3 := (agingPhase_sole st.now 2 (by omega) s2.sjfList s2 st' _ 1
        (by omega)
        (fun u hu hid => ⟨(hR.1 ⟨2, by omega⟩ u hu hid).2, by simp [AGING_TICKS]⟩) hR h).1
      exact ⟨fun hcon => absurd hcon hlg, fun _ => hR3⟩
  · -- own phase is phase 2
    obtain ⟨hS1, hn1, hc1⟩ := agingPhase_sole st.now 0 (by omega) st.readyList st s1 t 2
      (by omega)
      (fun u hu hid => absurd ((hS.1 ⟨0, by omega⟩ u hu hid).1) (by simp))
      hS h0
    obtain ⟨hS2, hn2, hc2⟩ := agingPhase_sole st.now 1 (by omega) s1.priorityList s1 s2 t 2
      (by omega)
      (fun u hu hid => absurd ((hS1.1 ⟨1, by omega⟩ u hu hid).1) (by simp)) hS1 h1
    obtain ⟨⟨hmove, hstay⟩, hn3, hc3⟩ := agingPhase_own st.now 2 (by omega) t s2 st'
      (by rw [hn2, hn1]) hstale hS2 h
    by_cases hlg : LEVEL_GAP ≤ (if t.priority + 10 < 150 then t.priority + 10 else 149)
    · exact ⟨fun _ => hmove hlg, fun hcon => absurd hlg (by omega)⟩
    · exact ⟨fun hcon => absurd hcon hlg, fun _ => hstay (by omega)⟩

theorem Aging_total (st : SchedState) : ∃ st', Scheduler.Aging st = some st' := by
  obtain ⟨s1, h0⟩ := agingPhase_total st.now 0 st.readyList st
  obtain ⟨s2, h1⟩ := agingPhase_total st.now 1 s1.priorityList s1
  obtain ⟨s3, h2⟩ := agingPhase_total st.now 2 s2.sjfList s2
  refine ⟨s3, ?_⟩
  unfold Scheduler.Aging
  rw [h0]
  dsimp only
  rw [h1]
  dsimp only
  exact h2


theorem agingStep_bounded (now qi : Nat) (hqi : qi < 3) (u : Thread) (st st1 : SchedState)
    (hb : ∀ j : Fin 3, ∀ z ∈ Scheduler.getQueue st j.val, z.priority ≤ 149)
    (h : Scheduler.agingStep now qi u st = some st1) :
    ∀ j : Fin 3, ∀ z ∈ Scheduler.getQueue st1 j.val, z.priority ≤ 149 := by
  unfold Scheduler.agingStep at h
  by_cases hstale : AGING_TICKS ≤ now - u.lastCPUTick
  · rw [if_pos hstale] at h
    dsimp only at h
    by_cases hlg : LEVEL_GAP ≤ (if u.priority + 10 < 150 then u.priority + 10 else 149)
    · rw [if_pos hlg] at h
      intro j z hz
      rcases ReadyToRun_mem_queues _ _ _ h j.val j.isLt z hz with rfl | hz2
      · exact agedPriority_le u.priority
      · by_cases hjq : j.val = qi
        · rw [hjq, getQueue_setQueue_self st qi _ hqi] at hz2
          exact hb ⟨qi, hqi⟩ z (List.mem_of_mem_eraseP hz2)
        · rw [getQueue_setQueue_ne st qi _ _ hqi hjq] at hz2
          exact hb j z hz2
    · rw [if_neg hlg] at h
      obtain rfl := Option.some.inj h
      intro j z hz
      by_cases hjq : j.val = qi
      · rw [hjq, getQueue_setQueue_self st qi _ hqi] at hz
        rcases mem_replaceById _ _ _ z hz with rfl | hz2
        · exact agedPriority_le u.priority
        · exact hb ⟨qi, hqi⟩ z hz2
      · rw [getQueue_setQueue_ne st qi _ _ hqi hjq] at hz
        exact hb j z hz
  · rw [if_neg hstale] at h
    obtain rfl := Option.some.inj h
    exact hb

theorem agingPhase_bounded (now qi : Nat) (hqi : qi < 3) :
    ∀ (snap : List Thread) (st st' : SchedState),
      (∀ j : Fin 3, ∀ z ∈ Scheduler.getQueue st j.val, z.priority ≤ 149) →
      Scheduler.agingPhase now qi snap st = some st' →
      ∀ j : Fin 3, ∀ z ∈ Scheduler.getQueue st' j.val, z.priority ≤ 149
  | [], st, st', hb, h => by
    obtain rfl := Option.some.inj h
    exact hb
  | u :: us, st, st', hb, h => by
    simp only [Scheduler.agingPhase] at h
    rcases hstep : Scheduler.agingStep now qi u st with _ | stmid <;> rw [hstep] at h
    · simp at h
    · exact agingPhase_bounded now qi hqi us stmid st'
        (agingStep_bounded now qi hqi u st stmid hb hstep) h

theorem Aging_bounded (st st' : SchedState)
    (hb : ∀ j : Fin 3, ∀ z ∈ Scheduler.getQueue st j.val, z.priority ≤ 149)
    (h : Scheduler.Aging st = some st') :
    ∀ j : Fin 3, ∀ z ∈ Scheduler.getQueue st' j.val, z.priority ≤ 149 := by
  unfold Scheduler.Aging at h
  rcases h0 : Scheduler.agingPhase st.now 0 st.readyList st with _ | s1 <;> rw [h0] at h
  · simp at h
  dsimp only at h
  rcases h1 : Scheduler.agingPhase st.now 1 s1.priorityList s1 with _ | s2 <;> rw [h1] at h
  · simp at h
  dsimp only at h
  exact agingPhase_bounded st.now 2 (by omega) s2.sjfList s2 st'
    (agingPhase_bounded st.now 1 (by omega) s1.priorityList s1 s2
      (agingPhase_bounded st.now 0 (by omega) st.readyList st s1 hb h0) h1) h

/-- **C5.** `Scheduler::Aging` (scheduler.cc:308) never hits an assertion
(the aged priority is always below 150, so the `ReadyToRun` re-insertion
always succeeds), and for a queued thread `t` that is the sole carrier of
its id (the rendering of the C `Thread*` being linked into exactly one
queue): if `now - t->lastCPUTick >= 1500` (`AGING_TICKS`) when `Aging`
runs, `t`'s priority becomes `min(p + 10, 149)`; when that new priority
reaches `LEVEL_GAP` (50) the thread is removed from its queue and
re-inserted via `ReadyToRun` — it ends up `READY` with its tick restamped
in the tier queue `p' / LEVEL_GAP` — and otherwise it stays in its queue
with only the priority change and the `lastCPUTick` reset to `now`;
threads with `now - lastCPUTick < 1500` keep exactly their record in
their queue; and if every queued priority is at most 149 beforehand, the
same bound (hence membership in `[0, 149]`, priorities being `Nat`) holds
for every queued thread afterwards. -/
theorem C5_aging (st st' : SchedState) (t : Thread) (qi : Nat) :
    (∃ s, Scheduler.Aging st = some s) ∧
    (Scheduler.Aging st = some st' → qi < 3 → soleEntry st t qi →
      ((AGING_TICKS ≤ st.now - t.lastCPUTick →
         (LEVEL_GAP ≤ min (t.priority + 10) 149 →
           soleEntry st'
             { t with priority := min (t.priority + 10) 149,
                      lastCPUTick := st.now, status := ThStatus.READY }
             (min (t.priority + 10) 149 / LEVEL_GAP)) ∧
         (min (t.priority + 10) 149 < LEVEL_GAP →
           soleEntry st'
             { t with priority := min (t.priority + 10) 149,
                      lastCPUTick := st.now } qi)) ∧
       (st.now - t.lastCPUTick < AGING_TICKS → soleEntry st' t qi))) ∧
    (Scheduler.Aging st = some st' →
      (∀ j : Fin 3, ∀ z ∈ Scheduler.getQueue st j.val, z.priority ≤ 149) →
      ∀ j : Fin 3, ∀ z ∈ Scheduler.getQueue st' j.val, z.priority ≤ 149) := by
  have hmin : (if t.priority + 10 < 150 then t.priority + 10 else 149) =
      min (t.priority + 10) 149 := by
    by_cases hp : t.priority + 10 < 150
    · rw [if_pos hp]
      omega
    · rw [if_neg hp]
      omega
  refine ⟨Aging_total st, fun h hqi hS => ⟨fun hstale => ?_, fun hfresh =>
    Aging_sole_fresh st st' t qi hqi hfresh hS h⟩,
    fun h hb => Aging_bounded st st' hb h⟩
  have hD := Aging_sole_stale st st' t qi hqi hstale hS h
  rw [hmin] at hD
  exact hD

set_option maxRecDepth 10000 in
/-- Concrete run of C5 on `exSched5` (`now = 2000`): `Aging` succeeds,
thread 10 (stale, priority 45) moves to the priority queue as priority 55
with status `READY` and tick 2000, thread 11 (stale, priority 30) stays in
the rr queue at priority 40 with tick 2000, fresh thread 12 is untouched,
and all queued priorities stay at most 149. -/
theorem C5_witness :
    (∃ s, Scheduler.Aging exSched5 = some s) ∧
    soleEntry exSched5'
      { exT10 with priority := 55, lastCPUTick := 2000, status := ThStatus.READY } 1 ∧
    soleEntry exSched5' { exT11 with priority := 40, lastCPUTick := 2000 } 0 ∧
    soleEntry exSched5' exT12 2 ∧
    (∀ j : Fin 3, ∀ z ∈ Scheduler.getQueue exSched5' j.val, z.priority ≤ 149) := by
  refine ⟨(C5_aging exSched5 exSched5' exT10 0).1, ?_, ?_, ?_, ?_⟩
  · exact (((C5_aging exSched5 exSched5' exT10 0).2.1 (by decide) (by decide)
      (by decide)).1 (by decide)).1 (by decide)
  · exact (((C5_aging exSched5 exSched5' exT11 0).2.1 (by decide) (by decide)
      (by decide)).1 (by decide)).2 (by decide)
  · exact ((C5_aging exSched5 exSched5' exT12 2).2.1 (by decide) (by decide)
      (by decide)).2 (by decide)
  · exact (C5_aging exSched5 exSched5' exT10 0).2.2 (by decide) (by decide)

end Nachos
